import Mathlib

/-!
Verification development for the `ultwriter` repository (src/app.py) and for
the Translation Record Ingestion & Validation Pipeline that its specification
describes.  The first part embeds the helper functions that actually exist in
src/app.py (`process_bible_data`, `create_download_content`, `call_ai_api`)
over a model of Python values.  The second part models the pipeline
(`parse` / `validate` / `serialize`) from the specification, since only the
thin UI caller exists in the source.
-/

namespace UltWriter

/-! ### Character-level splitting and joining

`str.split(sep)`-style splitting over explicit character lists; used both for
the Python `str.split('\n')` in `process_bible_data` and for the TSV
line/field structure of the modelled pipeline. -/

/-- Split a character list at every occurrence of `sep`.  Mirrors Python
`s.split(sep)`: the result is always nonempty, and splitting the empty list
gives `[[]]` (Python: `"".split(x) == ['']`). -/
def splitOnChar (sep : Char) : List Char → List (List Char)
  | [] => [[]]
  | c :: rest =>
    if c = sep then [] :: splitOnChar sep rest
    else
      match splitOnChar sep rest with
      | [] => [[c]]
      | g :: gs => (c :: g) :: gs

/-- Join character lists with a separator character (inverse of `splitOnChar`
on separator-free groups). -/
def joinWith (sep : Char) : List (List Char) → List Char
  | [] => []
  | [x] => x
  | x :: y :: rest => x ++ sep :: joinWith sep (y :: rest)

/-- String-level wrapper of `splitOnChar`. -/
def splitStr (sep : Char) (s : String) : List String :=
  (splitOnChar sep s.data).map String.mk

/-- String-level wrapper of `joinWith`. -/
def joinStr (sep : Char) (ls : List String) : String :=
  String.mk (joinWith sep (ls.map String.data))

/-! ### Decimal numerals -/

/-- The character for a decimal digit `d < 10`. -/
def digitChar (d : Nat) : Char := Char.ofNat (48 + d)

/-- Decimal digit characters of `n`, most significant first (`[]` for zero). -/
def natDigits (n : Nat) : List Char :=
  if h : n = 0 then []
  else
    have : n / 10 < n := Nat.div_lt_self (Nat.pos_of_ne_zero h) (by norm_num)
    natDigits (n / 10) ++ [digitChar (n % 10)]

/-- Decimal rendering of a natural number. -/
def natToStr (n : Nat) : String :=
  if n = 0 then "0" else String.mk (natDigits n)

/-- Decimal rendering of an integer (Python `str(int)`). -/
def intToStr (n : Int) : String :=
  if n < 0 then "-" ++ natToStr n.natAbs else natToStr n.natAbs

/-! ### Python value model

The values `src/app.py` manipulates: strings (non-TSV file contents), lists
of dicts (`df.to_dict('records')`), ints, and `None`. -/

inductive PyVal where
  | str (s : String)
  | int (n : Int)
  | list (xs : List PyVal)
  | dict (entries : List (String × PyVal))
  | noneV

mutual

/-- Python `repr`.  String escaping inside `repr` of a string is not modelled
(no claim depends on it); quotes are rendered as in CPython for strings
without special characters. -/
def pyRepr : PyVal → String
  | .str s => "\x27" ++ s ++ "\x27"
  | .int n => intToStr n
  | .list xs => "[" ++ String.intercalate ", " (pyReprList xs) ++ "]"
  | .dict es => "\x7b" ++ String.intercalate ", " (pyReprEntries es) ++ "\x7d"
  | .noneV => "None"

def pyReprList : List PyVal → List String
  | [] => []
  | v :: vs => pyRepr v :: pyReprList vs

def pyReprEntries : List (String × PyVal) → List String
  | [] => []
  | (k, v) :: es => ("\x27" ++ k ++ "\x27: " ++ pyRepr v) :: pyReprEntries es

end

/-- Python `str()`: identity on strings, `repr`-based otherwise. -/
def pyStr : PyVal → String
  | .str s => s
  | v => pyRepr v

/-- Python `isinstance(·, list)`. -/
def isList : PyVal → Bool
  | .list _ => true
  | _ => false

/-- Python `len` on the values it is applied to in src/app.py (lists; the
other cases are given for totality and are never reached by the claims). -/
def pyLen : PyVal → Nat
  | .list xs => xs.length
  | .str s => s.length
  | .dict es => es.length
  | _ => 0

/-- Python `d.get(k, default)` over a keyword/params association list. -/
def lookupParam (params : List (String × PyVal)) (k : String) (d : PyVal) : PyVal :=
  (params.lookup k).getD d

/-- Key lookup in a `PyVal.dict` (Python `d[k]` / `k in d` probing). -/
def dictLookup (v : PyVal) (k : String) : Option PyVal :=
  match v with
  | .dict es => es.lookup k
  | _ => Option.none

/-! ### src/app.py: `process_bible_data` (lines 176-204) -/

/-- `len(data) if isinstance(data, list) else len(str(data).split('\n'))`
from line 185 of src/app.py. -/
def totalEntries (data : PyVal) : Nat :=
  if isList data then pyLen data else (splitStr '\n' (pyStr data)).length

/-- The initial `result` dictionary built at lines 181-188 of src/app.py,
with the already-computed entry count `total`. -/
def processBase (data : PyVal) (mode : String) (total : Nat) : List (String × PyVal) :=
  [("summary", PyVal.str ("Processed data using " ++ mode ++ " mode")),
   ("processed_data", data),
   ("statistics", PyVal.dict
     [("total_entries", PyVal.int (Int.ofNat total)),
      ("processing_mode", PyVal.str mode)])]

/-- The result dictionary of src/app.py lines 181-203, given the computed
entry count.  The two `result[...] = ...` insertions of the mode-specific
branches are modelled by appending the new key to the association list. -/
def processResult (data : PyVal) (mode : String)
    (params : List (String × PyVal)) (total : Nat) : PyVal :=
  PyVal.dict
    (if mode = "Translation Analysis" then
      processBase data mode total ++
        [("analysis", PyVal.dict
          [("source_language", lookupParam params "source_lang" (PyVal.str "Unknown")),
           ("target_language", lookupParam params "target_lang" (PyVal.str "Unknown")),
           ("analysis_types", lookupParam params "analysis_type" (PyVal.list []))])]
    else if mode = "Quality Check" then
      processBase data mode total ++
        [("quality_report", PyVal.dict
          [("checks_performed", lookupParam params "check_types" (PyVal.list [])),
           ("issues_found", PyVal.int 0),
           ("quality_score", PyVal.int 95)])]
    else processBase data mode total)

/-- src/app.py lines 176-204. -/
def process_bible_data (data : PyVal) (mode : String)
    (params : List (String × PyVal)) : PyVal :=
  processResult data mode params (totalEntries data)

/-! ### src/app.py: `create_download_content` (lines 206-216) -/

/-- JSON string escaping for the `json.dumps` model. -/
def jsonEscapeChar (c : Char) : String :=
  if c = '"' then "\\\""
  else if c = '\\' then "\\\\"
  else if c = '\n' then "\\n"
  else if c = '\t' then "\\t"
  else if c = '\x0d' then "\\r"
  else String.mk [c]

/-- Escape every character of a string for JSON output. -/
def jsonEscape (s : String) : String :=
  String.join (s.data.map jsonEscapeChar)

/-- `n` space characters. -/
def spaces (n : Nat) : String := String.mk (List.replicate n ' ')

mutual

/-- Model of Python `json.dumps(v, indent=2)` (src/app.py line 211),
rendering at indentation level `lvl`. -/
def jsonDumps (v : PyVal) (lvl : Nat) : String :=
  match v with
  | .str s => "\"" ++ jsonEscape s ++ "\""
  | .int n => intToStr n
  | .noneV => "null"
  | .list xs =>
    match jsonItems xs (lvl + 1) with
    | [] => "[]"
    | items =>
      "[\n" ++ String.intercalate ",\n" (items.map (fun it => spaces ((lvl + 1) * 2) ++ it))
        ++ "\n" ++ spaces (lvl * 2) ++ "]"
  | .dict es =>
    match jsonEntries es (lvl + 1) with
    | [] => "\x7b\x7d"
    | items =>
      "\x7b\n" ++ String.intercalate ",\n" (items.map (fun it => spaces ((lvl + 1) * 2) ++ it))
        ++ "\n" ++ spaces (lvl * 2) ++ "\x7d"

def jsonItems (xs : List PyVal) (lvl : Nat) : List String :=
  match xs with
  | [] => []
  | v :: vs => jsonDumps v lvl :: jsonItems vs lvl

def jsonEntries (es : List (String × PyVal)) (lvl : Nat) : List String :=
  match es with
  | [] => []
  | (k, v) :: rest => ("\"" ++ jsonEscape k ++ "\": " ++ jsonDumps v lvl) :: jsonEntries rest lvl

end

/-- Keys of a `PyVal.dict` in order. -/
def dictKeys : PyVal → List String
  | .dict es => es.map (·.1)
  | _ => []

/-- First-seen union of the dict keys of a list of rows (the column order
`pd.DataFrame(list_of_dicts)` produces). -/
def firstSeenUnion (rows : List PyVal) : List String :=
  rows.foldl (fun acc r => acc ++ (dictKeys r).filter (fun k => !acc.contains k)) []

/-- Model of `pd.DataFrame(data).to_csv(sep='\t', index=False)` on a list of
record dicts (src/app.py lines 213-214): header from the first-seen key
union, one tab-separated line per row, missing cells empty, trailing
newline.  Cell rendering of non-string scalars is simplified to `str`. -/
def dfToTsv (rows : List PyVal) : String :=
  let cols := firstSeenUnion rows
  joinStr '\n'
    (joinStr '\t' cols ::
      rows.map (fun r => joinStr '\t' (cols.map (fun c => ((dictLookup r c).map pyStr).getD ""))))
    ++ "\n"

/-- ASCII lowercasing of a character (Python `str.lower` restricted to the
ASCII letters that appear in the format tokens). -/
def toLowerChar (c : Char) : Char :=
  if 'A' ≤ c ∧ c ≤ 'Z' then Char.ofNat (c.toNat + 32) else c

/-- Python `format_type.lower()`. -/
def strLower (s : String) : String := String.mk (s.data.map toLowerChar)

/-- src/app.py lines 206-216, argument order as in the source
(`data, format_type`). -/
def create_download_content (data : PyVal) (format_type : String) : String :=
  if strLower format_type = "json" then jsonDumps data 0
  else if strLower format_type = "tsv" ∧ isList data = true then
    dfToTsv (match data with | .list xs => xs | _ => [])
  else pyStr data

/-! ### src/app.py: `call_ai_api` (lines 218-234) -/

/-- An observable outward effect an API-calling function could perform.  The
embedding pairs every call with the list of effects it performs, so that
"performs no provider request" is a statement about the returned list. -/
inductive ApiEffect where
  | httpPost (url : String) (body : String)

/-- src/app.py lines 218-234.  Both provider branches contain only comments
and `pass`, so they contribute no effect; the function then returns the
constant placeholder string. -/
def call_ai_api (content : String) (prompt : String) (api_provider : String)
    (api_key : Option String) : String × List ApiEffect :=
  let effects : List ApiEffect :=
    if api_provider = "OpenAI" then []
    else if api_provider = "Anthropic" then []
    else []
  ("AI processing result placeholder", effects)

/-! ## The Translation Record Ingestion & Validation Pipeline

The pipeline of spec sections 2-4 (`parse` / `validate` / `serialize`) has no
implementation in src/app.py: the UI is its only would-be caller, and it
invokes the placeholder `process_bible_data` instead.  The definitions below
are therefore modelled from the specification text. -/

/-- Modelled from the spec: a structured scripture locator (section 3).
Sub-verse ranges never arise from TSV data and are omitted. -/
structure Reference where
  book : String
  chapter : Nat
  verse : Nat
deriving DecidableEq, Repr

/-- Modelled from the spec: the canonical unit of translation data
(section 3).  `reference` is `none` for plain-text input; `metadata` is a
key-value list in first-seen order. -/
structure TranslationRecord where
  reference : Option Reference
  sourceText : Option String
  targetText : String
  metadata : List (String × String)
deriving DecidableEq, Repr

instance : Inhabited TranslationRecord :=
  ⟨⟨Option.none, Option.none, "", []⟩⟩

/-- Modelled from the spec: issue severities (section 3). -/
inductive Severity where
  | error
  | warning
  | info
deriving DecidableEq, Repr

/-- Numeric rank realising the `Error < Warning < Info` order. -/
def sevRank : Severity → Nat
  | .error => 0
  | .warning => 1
  | .info => 2

/-- Modelled from the spec: a validation finding (section 3). -/
structure ValidationIssue where
  recordIndex : Nat
  severity : Severity
  code : String
  message : String
deriving DecidableEq, Repr

/-- Modelled from the spec: the four check kinds (section 4.2). -/
inductive CheckKind where
  | consistency
  | reference
  | completeness
  | format
deriving DecidableEq, Repr

/-- Modelled from the spec: `metadata` marks a record as a variant/footnote
when it carries the key "variant" (section 3 invariant and section 4.2
ConsistencyCheck). -/
def isVariant (r : TranslationRecord) : Bool :=
  (r.metadata.lookup "variant").isSome

/-- Whether record `i` of `rs` repeats the reference of an earlier record
and is not marked as a variant. -/
def dupOfEarlier (rs : List TranslationRecord) (i : Nat) : Bool :=
  let r := rs.getD i default
  r.reference.isSome && !isVariant r &&
    (List.range i).any (fun j => (rs.getD j default).reference == r.reference)

/-- Modelled from the spec (section 4.2 ConsistencyCheck, constrained by the
section 8 example, which flags only `recordIndex 1` of a duplicated pair):
flags with severity Warning and code DUPLICATE_REFERENCE every record whose
reference repeats that of an earlier record, unless variant-marked. -/
def consistencyCheck (rs : List TranslationRecord) : List ValidationIssue :=
  (List.range rs.length).filterMap (fun i =>
    if dupOfEarlier rs i then
      some ⟨i, .warning, "DUPLICATE_REFERENCE", "reference duplicates an earlier record"⟩
    else Option.none)

/-- Modelled from the spec: the injected canonical-book table (sections 4.2
and 9): book name to per-chapter verse counts. -/
abbrev BookTable := List (String × List Nat)

/-- Modelled from the spec (section 4.2 ReferenceValidation): unknown books
and out-of-range chapter/verse numbers are Errors. -/
def referenceCheck (table : BookTable) (rs : List TranslationRecord) : List ValidationIssue :=
  (List.range rs.length).filterMap (fun i =>
    match (rs.getD i default).reference with
    | Option.none => Option.none
    | some ref =>
      match table.lookup ref.book with
      | Option.none => some ⟨i, .error, "UNKNOWN_BOOK", "book not in canonical table"⟩
      | some chapters =>
        if ref.chapter = 0 ∨ chapters.length < ref.chapter then
          some ⟨i, .error, "INVALID_REFERENCE", "chapter out of range"⟩
        else if ref.verse = 0 ∨ chapters.getD (ref.chapter - 1) 0 < ref.verse then
          some ⟨i, .error, "INVALID_REFERENCE", "verse out of range"⟩
        else Option.none)

/-- Modelled from the spec (section 4.2 CompletenessCheck): records with
empty `targetText` get a Warning with code INCOMPLETE. -/
def completenessCheck (rs : List TranslationRecord) : List ValidationIssue :=
  (List.range rs.length).filterMap (fun i =>
    if (rs.getD i default).targetText = "" then
      some ⟨i, .warning, "INCOMPLETE", "empty target text"⟩
    else Option.none)

/-- Modelled from the spec (section 4.2 FormatValidationCheck, stated only
loosely there): re-checks the structural assumption of tabular origin that
every record carries a structured reference, flagging violations as
Errors. -/
def formatCheck (rs : List TranslationRecord) : List ValidationIssue :=
  (List.range rs.length).filterMap (fun i =>
    if (rs.getD i default).reference.isSome then Option.none
    else some ⟨i, .error, "FORMAT", "record lacks a structured reference"⟩)

/-- Computable lexicographic order on character lists (used to order issue
codes; Lean's built-in `String` order does not reduce in the kernel). -/
def charListLE : List Char → List Char → Bool
  | [], _ => true
  | _ :: _, [] => false
  | c :: cs, d :: ds =>
    if c.toNat < d.toNat then true
    else if d.toNat < c.toNat then false
    else charListLE cs ds

/-- Lexicographic order on strings. -/
def strLEb (s t : String) : Bool := charListLE s.data t.data

/-- The `(recordIndex, severity, code)` sort key order of spec section 4.2. -/
def issueLEb (a b : ValidationIssue) : Bool :=
  decide (a.recordIndex < b.recordIndex) ||
    (decide (a.recordIndex = b.recordIndex) &&
      (decide (sevRank a.severity < sevRank b.severity) ||
        (decide (sevRank a.severity = sevRank b.severity) && strLEb a.code b.code)))

/-- Propositional form of `issueLEb`. -/
def issueLE (a b : ValidationIssue) : Prop := issueLEb a b = true

instance : DecidableRel issueLE := fun a b => instDecidableEqBool (issueLEb a b) true

/-- Modelled from the spec (section 4.2): run every selected check
independently — the selection is consulted pointwise, so no check can
suppress another and no internal execution order is observable — then sort
the collected issues by `(recordIndex, severity, code)`. -/
def validate (rs : List TranslationRecord) (sel : CheckKind → Bool)
    (table : BookTable) : List ValidationIssue :=
  List.insertionSort issueLE
    ((if sel .consistency then consistencyCheck rs else []) ++
     (if sel .reference then referenceCheck table rs else []) ++
     (if sel .completeness then completenessCheck rs else []) ++
     (if sel .format then formatCheck rs else []))

/-- The two-record set of the spec section 8 example: identical references,
no variant metadata. -/
def dupExample : List TranslationRecord :=
  [⟨some ⟨"Genesis", 1, 1⟩, Option.none, "In the beginning", []⟩,
   ⟨some ⟨"Genesis", 1, 1⟩, Option.none, "Variant reading", []⟩]

/-- Check selection containing exactly the consistency check. -/
def consistencyOnly : CheckKind → Bool
  | .consistency => true
  | _ => false

/-! ### State-passing embedding of `process_bible_data`

For the frame claim, every operation the body of `process_bible_data`
applies to its `data` argument is embedded as a state-passing primitive
returning its result together with the value of `data` after the operation,
as given by Python semantics.  The body performs only reads —
`isinstance(data, list)`, `len(data)`, `str(data)`, and embedding the
reference into the result dict — so each primitive returns its argument as
the new state. -/

/-- `isinstance(data, list)`: a read; does not mutate its argument. -/
def pyIsListOp (v : PyVal) : Bool × PyVal := (isList v, v)

/-- `len(data)`: a read; does not mutate its argument. -/
def pyLenOp (v : PyVal) : Nat × PyVal := (pyLen v, v)

/-- `str(data)`: builds a new string; does not mutate its argument. -/
def pyStrOp (v : PyVal) : String × PyVal := (pyStr v, v)

/-- State-passing version of `process_bible_data`: the second component of
the result is the value of the `data` argument when the call returns. -/
def process_bible_data_st (data : PyVal) (mode : String)
    (params : List (String × PyVal)) : PyVal × PyVal :=
  let p1 := pyIsListOp data
  let p2 :=
    if p1.1 then pyLenOp p1.2
    else
      let q := pyStrOp p1.2
      ((splitStr '\n' q.1).length, q.2)
  (processResult p2.2 mode params p2.1, p2.2)

/-! ### Modelled pipeline: TSV parsing (spec section 4.1)

`parse(bytes, "tsv")` has no implementation in the source (the UI merely
previews TSV files with pandas); the functions below are modelled from the
spec: first row is a header; required columns `Book`, `Chapter`, `Verse`,
`Target Text`; optional `Source Text`; additional columns fold into
`metadata`; a row with a missing required column or a non-numeric
chapter/verse raises `ParseError` identifying the 1-based file row and the
reason; trailing blank lines are ignored. -/

/-- Modelled from the spec: `ParseError{line, reason}` (section 4.1); `line`
is the 1-based row of the input file (header = row 1). -/
structure ParseError where
  line : Nat
  reason : String
deriving DecidableEq, Repr

/-- The required TSV columns (spec section 4.1). -/
def requiredCols : List String := ["Book", "Chapter", "Verse", "Target Text"]

/-- Columns with a dedicated record field; all others fold into metadata. -/
def reservedCols : List String := requiredCols ++ ["Source Text"]

/-- Decimal digit value of a character, if it is a digit. -/
def digitVal? (c : Char) : Option Nat :=
  if 48 ≤ c.toNat ∧ c.toNat ≤ 57 then some (c.toNat - 48) else Option.none

/-- Accumulating decimal reader. -/
def strToNatAux : List Char → Nat → Option Nat
  | [], acc => some acc
  | c :: cs, acc =>
    match digitVal? c with
    | some d => strToNatAux cs (acc * 10 + d)
    | Option.none => Option.none

/-- Modelled from the spec: the numeral grammar for Chapter/Verse fields — a
nonempty all-digit string; anything else is "non-numeric" (section 4.1). -/
def strToNat? (s : String) : Option Nat :=
  match s.data with
  | [] => Option.none
  | cs => strToNatAux cs 0

/-- Remove trailing blank lines (spec section 4.1 edge-case policy). -/
def dropTrailingBlanks (ls : List String) : List String :=
  (ls.reverse.dropWhile (fun s => s == "")).reverse

/-- Parse one data row of a TSV file against the header columns `cols`;
`lineNo` is its 1-based row in the file.  Modelled from the spec
(section 4.1). -/
def parseRow (cols : List String) (lineNo : Nat) (row : String) :
    Except ParseError TranslationRecord :=
  let fields := splitStr '\t' row
  if fields.length = cols.length then
    match (cols.zip fields).lookup "Book", (cols.zip fields).lookup "Chapter",
        (cols.zip fields).lookup "Verse", (cols.zip fields).lookup "Target Text" with
    | some book, some chapterS, some verseS, some target =>
      match strToNat? chapterS, strToNat? verseS with
      | some chapter, some verse =>
        .ok ⟨some ⟨book, chapter, verse⟩,
          (cols.zip fields).lookup "Source Text",
          target,
          (cols.zip fields).filter (fun kv => !(reservedCols.contains kv.1))⟩
      | Option.none, _ => .error ⟨lineNo, "non-numeric chapter"⟩
      | _, Option.none => .error ⟨lineNo, "non-numeric verse"⟩
    | _, _, _, _ => .error ⟨lineNo, "missing required column"⟩
  else .error ⟨lineNo, "missing required column: wrong number of fields"⟩

/-- Parse the data rows in order, stopping at the first malformed row. -/
def parseRows (cols : List String) (lineNo : Nat) :
    List String → Except ParseError (List TranslationRecord)
  | [] => .ok []
  | row :: rest =>
    match parseRow cols lineNo row with
    | .error e => .error e
    | .ok r =>
      match parseRows cols (lineNo + 1) rest with
      | .error e => .error e
      | .ok rs => .ok (r :: rs)

/-- Modelled from the spec: `parse(bytes, "tsv")` (section 4.1).  The header
must contain every required column; duplicate column names cannot satisfy
the metadata key-uniqueness invariant of section 3 and are rejected. -/
def parseTSV (input : String) : Except ParseError (List TranslationRecord) :=
  match dropTrailingBlanks (splitStr '\n' input) with
  | [] => .error ⟨1, "empty input: missing header row"⟩
  | headerLine :: rows =>
    if (splitStr '\t' headerLine).Nodup then
      if requiredCols.all (fun c => (splitStr '\t' headerLine).contains c) then
        parseRows (splitStr '\t' headerLine) 2 rows
      else .error ⟨1, "missing required column in header"⟩
    else .error ⟨1, "duplicate column name in header"⟩

/-! ### Modelled pipeline: TSV serialization (spec section 4.3) -/

/-- Metadata keys of the set in first-seen order (spec section 4.3 TSV). -/
def metaKeysFold (rs : List TranslationRecord) : List String :=
  rs.foldl (fun acc r => acc ++ (r.metadata.map Prod.fst).filter (fun k => !(acc.contains k))) []

/-- Whether any record carries source text (controls the optional
`Source Text` column). -/
def hasSource (rs : List TranslationRecord) : Bool :=
  rs.any (fun r => r.sourceText.isSome)

/-- Header reconstruction: required columns first, then the optional
`Source Text`, then metadata keys in first-seen order (spec section 4.3). -/
def headerCols (rs : List TranslationRecord) : List String :=
  requiredCols ++ (if hasSource rs then ["Source Text"] else []) ++ metaKeysFold rs

/-- The field a record contributes under a given column name. -/
def recordField (r : TranslationRecord) (c : String) : String :=
  if c = "Book" then (r.reference.map Reference.book).getD ""
  else if c = "Chapter" then (r.reference.map (fun rf => natToStr rf.chapter)).getD ""
  else if c = "Verse" then (r.reference.map (fun rf => natToStr rf.verse)).getD ""
  else if c = "Target Text" then r.targetText
  else if c = "Source Text" then r.sourceText.getD ""
  else (r.metadata.lookup c).getD ""

/-- Modelled from the spec: `serialize(RecordSet, "tsv")` (section 4.3). -/
def serializeTSV (rs : List TranslationRecord) : String :=
  joinStr '\n'
    (joinStr '\t' (headerCols rs) ::
      rs.map (fun r => joinStr '\t' ((headerCols rs).map (recordField r))))

/-! ### Well-formedness of a record set relative to a TSV shape -/

/-- No tab or newline among the characters of `s` (such a string survives a
TSV round trip unchanged). -/
def cleanChars (s : String) : Bool :=
  s.data.all (fun c => !(c == '\t') && !(c == '\n'))

/-- The column shape a TSV parse imposes on every record of its output:
whether a `Source Text` column was present, and the metadata key list. -/
structure TSVShape where
  srcPresent : Bool
  keys : List String

/-- A record compatible with shape `sh`: structured reference, clean fields,
source-text presence matching the shape, metadata keys exactly `sh.keys`. -/
def recordWF (sh : TSVShape) (r : TranslationRecord) : Bool :=
  (match r.reference with
   | some ref => cleanChars ref.book
   | Option.none => false) &&
  cleanChars r.targetText &&
  (r.sourceText.isSome == sh.srcPresent) &&
  (match r.sourceText with
   | some s => cleanChars s
   | Option.none => true) &&
  decide (r.metadata.map Prod.fst = sh.keys) &&
  r.metadata.all (fun kv => cleanChars kv.2)

/-- A shape with unique, clean, non-reserved metadata keys. -/
def shapeWF (sh : TSVShape) : Bool :=
  decide sh.keys.Nodup &&
    sh.keys.all (fun k => cleanChars k && !(reservedCols.contains k))

/-- A record set all of whose records fit one well-formed shape. -/
def setWF (sh : TSVShape) (rs : List TranslationRecord) : Bool :=
  shapeWF sh && rs.all (recordWF sh)

/-! ### Modelled pipeline: XML serialization (spec section 4.3)

"XML: one element per record, attributes for reference, escaped text nodes
for source/target text"; "never silently truncate data; escape or error". -/

/-- Modelled from the spec: `SerializeError{reason}` (section 4.3). -/
structure SerializeError where
  reason : String
deriving DecidableEq, Repr

/-- Escape one character for XML text or attribute content. -/
def escapeXmlChar (c : Char) : String :=
  if c = '<' then "&lt;"
  else if c = '>' then "&gt;"
  else if c = '&' then "&amp;"
  else if c = '"' then "&quot;"
  else String.mk [c]

/-- Escape a character list for XML content. -/
def escapeXmlList : List Char → List Char
  | [] => []
  | c :: cs => (escapeXmlChar c).data ++ escapeXmlList cs

/-- Escape a string for XML content. -/
def escapeXml (s : String) : String := String.mk (escapeXmlList s.data)

/-- Characters allowed in the XML attribute names the serializer emits. -/
def xmlNameChar (c : Char) : Bool :=
  c.isAlpha || c.isDigit || c == '_' || c == '-'

/-- Whether a metadata key can be emitted as an XML attribute name;
attribute names cannot be escaped, so other keys are unrepresentable. -/
def xmlNameOk (s : String) : Bool :=
  !s.isEmpty && s.data.all xmlNameChar

/-- Concatenate a list of strings. -/
def concatAll : List String → String
  | [] => ""
  | s :: rest => s ++ concatAll rest

/-- Render one attribute with escaped value. -/
def renderAttr (k v : String) : String :=
  " " ++ k ++ "=\"" ++ escapeXml v ++ "\""

/-- Render the reference as attributes of the record element. -/
def renderRefAttrs : Option Reference → String
  | Option.none => ""
  | some ref =>
    renderAttr "book" ref.book ++ renderAttr "chapter" (natToStr ref.chapter) ++
      renderAttr "verse" (natToStr ref.verse)

/-- Render one metadata entry as an element with escaped text content. -/
def renderMeta (kv : String × String) : String :=
  "<meta" ++ renderAttr "key" kv.1 ++ ">" ++ escapeXml kv.2 ++ "</meta>"

/-- Render the optional source text as an element with escaped content. -/
def renderSource : Option String → String
  | Option.none => ""
  | some s => "<source>" ++ escapeXml s ++ "</source>"

/-- Render one record as an XML element. -/
def renderRecord (r : TranslationRecord) : String :=
  "<record" ++ renderRefAttrs r.reference ++ ">" ++
    renderSource r.sourceText ++
    "<target>" ++ escapeXml r.targetText ++ "</target>" ++
    concatAll (r.metadata.map renderMeta) ++
    "</record>"

/-- Render a record set as an XML document fragment. -/
def renderRecordSet (rs : List TranslationRecord) : String :=
  "<records>" ++ concatAll (rs.map renderRecord) ++ "</records>"

/-- Number of markup-opening characters one record's element contributes:
`<record`, `<target>`, `</target>`, `</record>`, optionally
`<source>`/`</source>`, and `<meta>`/`</meta>` per metadata entry.  This
depends only on the record's structure, never on its text. -/
def recordTagCount (r : TranslationRecord) : Nat :=
  4 + (if r.sourceText.isSome then 2 else 0) + 2 * r.metadata.length

/-- Markup-opening characters of the whole document. -/
def tagCount (rs : List TranslationRecord) : Nat :=
  2 + (rs.map recordTagCount).sum

/-- Whether every metadata key of the set is a valid XML attribute name. -/
def allXmlKeysOk (rs : List TranslationRecord) : Bool :=
  rs.all (fun r => r.metadata.all (fun kv => xmlNameOk kv.1))

/-- Modelled from the spec (section 4.3): XML serialization escapes all text
and attribute content; a metadata key that cannot be an XML attribute name
cannot be represented losslessly, so the call fails with `SerializeError`
instead of truncating or emitting raw data. -/
def serializeXML (rs : List TranslationRecord) : Except SerializeError String :=
  if allXmlKeysOk rs then .ok (renderRecordSet rs)
  else .error ⟨"metadata key not representable as an XML attribute name"⟩

/-- A one-record set whose metadata value contains a raw `<`. -/
def xmlExample : List TranslationRecord :=
  [⟨some ⟨"Genesis", 1, 1⟩, Option.none, "In the beginning", [("note", "x<y")]⟩]

/-- A one-record set whose metadata key is not an XML name. -/
def xmlExampleBad : List TranslationRecord :=
  [⟨some ⟨"Genesis", 1, 1⟩, Option.none, "In the beginning", [("bad key", "v")]⟩]

/-! ### Claims about the functions that exist in src/app.py -/

/-- C1: `process_bible_data(data, mode, params)` returns a summary dictionary
that copies its input unchanged into the `processed_data` key, and whose
statistic `total_entries` equals `len(data)` when `data` is a list and
otherwise the number of newline-separated lines of `str(data)`; beyond this
counting and copying no transformation is applied to the data. -/
theorem c1_process_copies_and_counts (data : PyVal) (mode : String)
    (params : List (String × PyVal)) :
    dictLookup (process_bible_data data mode params) "processed_data" = some data ∧
    (dictLookup (process_bible_data data mode params) "statistics").bind
        (fun st => dictLookup st "total_entries")
      = some (PyVal.int (Int.ofNat (if isList data then pyLen data
          else (splitStr '\n' (pyStr data)).length))) := by
  refine ⟨?_, ?_⟩ <;>
    · simp only [process_bible_data, processResult, dictLookup]
      split
      · rfl
      · split <;> rfl

/-- C9: `call_ai_api` is an empty stub: for every combination of arguments it
performs no provider request (empty effect list) and returns the constant
string "AI processing result placeholder". -/
theorem c9_call_ai_api_stub (content : String) (prompt : String)
    (api_provider : String) (api_key : Option String) :
    call_ai_api content prompt api_provider api_key
      = ("AI processing result placeholder", []) := by
  unfold call_ai_api
  split
  · rfl
  · split <;> rfl

/-- C10: `create_download_content` treats only lowercased `"json"`, and
`"tsv"` with list data, as structured outputs; for every other
`format_type` (and for `"tsv"` on non-list data) it returns `str(data)`,
and the lowercasing makes the `"json"` branch case-insensitive. -/
theorem c10_download_fallback (data : PyVal) (format_type : String) :
    (strLower format_type ≠ "json" →
      ¬(strLower format_type = "tsv" ∧ isList data = true) →
      create_download_content data format_type = pyStr data) ∧
    create_download_content data "JsOn" = jsonDumps data 0 := by
  constructor
  · intro hjson htsv
    unfold create_download_content
    rw [if_neg hjson, if_neg htsv]
  · rfl

/-- Witness for C10 at `format_type = "xml"` (and the non-list `"tsv"` case
via `format_type = "tsv"` on a string). -/
theorem c10_download_fallback_witness :
    create_download_content (PyVal.str "hello") "xml" = pyStr (PyVal.str "hello") ∧
    create_download_content (PyVal.str "hello") "tsv" = pyStr (PyVal.str "hello") :=
  ⟨(c10_download_fallback (PyVal.str "hello") "xml").1 (by decide) (by decide),
   (c10_download_fallback (PyVal.str "hello") "tsv").1 (by decide) (by decide)⟩

/-! ### Order lemmas for the issue sort key -/

theorem charListLE_total (xs : List Char) : ∀ ys,
    (charListLE xs ys || charListLE ys xs) = true := by
  induction xs with
  | nil => intro ys; cases ys <;> simp [charListLE]
  | cons c cs ih =>
    intro ys
    cases ys with
    | nil => simp [charListLE]
    | cons d ds =>
      simp only [charListLE]
      by_cases h1 : c.toNat < d.toNat
      · simp [h1]
      · by_cases h2 : d.toNat < c.toNat
        · simp [h1, h2]
        · simp [h1, h2, ih ds]

theorem charListLE_trans (xs : List Char) : ∀ ys zs, charListLE xs ys = true →
    charListLE ys zs = true → charListLE xs zs = true := by
  induction xs with
  | nil => intro ys zs _ _; rfl
  | cons c cs ih =>
    intro ys zs h1 h2
    cases ys with
    | nil => exact absurd h1 (by simp [charListLE])
    | cons d ds =>
      cases zs with
      | nil => exact absurd h2 (by simp [charListLE])
      | cons e es =>
        simp only [charListLE] at h1 h2 ⊢
        by_cases hcd : c.toNat < d.toNat
        · by_cases hde : d.toNat < e.toNat
          · have hce : c.toNat < e.toNat := Nat.lt_trans hcd hde
            simp [hce]
          · by_cases hed : e.toNat < d.toNat
            · rw [if_neg hde, if_pos hed] at h2
              exact absurd h2 (by decide)
            · have hce : c.toNat < e.toNat := by omega
              simp [hce]
        · by_cases hdc : d.toNat < c.toNat
          · rw [if_neg hcd, if_pos hdc] at h1
            exact absurd h1 (by decide)
          · rw [if_neg hcd, if_neg hdc] at h1
            by_cases hde : d.toNat < e.toNat
            · have hce : c.toNat < e.toNat := by omega
              simp [hce]
            · by_cases hed : e.toNat < d.toNat
              · rw [if_neg hde, if_pos hed] at h2
                exact absurd h2 (by decide)
              · rw [if_neg hde, if_neg hed] at h2
                have h3 : ¬ c.toNat < e.toNat := by omega
                have h4 : ¬ e.toNat < c.toNat := by omega
                rw [if_neg h3, if_neg h4]
                exact ih ds es h1 h2

theorem issueLE_total (a b : ValidationIssue) : issueLE a b ∨ issueLE b a := by
  unfold issueLE issueLEb strLEb
  rcases Nat.lt_trichotomy a.recordIndex b.recordIndex with h | h | h
  · exact Or.inl (by simp [h])
  · rcases Nat.lt_trichotomy (sevRank a.severity) (sevRank b.severity) with g | g | g
    · exact Or.inl (by simp [h, g])
    · have htot := charListLE_total a.code.data b.code.data
      rw [Bool.or_eq_true] at htot
      rcases htot with hc | hc
      · exact Or.inl (by simp [h, g, hc])
      · exact Or.inr (by simp [h.symm, g.symm, hc])
    · exact Or.inr (by simp [h.symm, g])
  · exact Or.inr (by simp [h])

theorem issueLE_trans (a b c : ValidationIssue) (h1 : issueLE a b)
    (h2 : issueLE b c) : issueLE a c := by
  unfold issueLE issueLEb strLEb at h1 h2 ⊢
  simp only [Bool.or_eq_true, Bool.and_eq_true, decide_eq_true_eq] at h1 h2 ⊢
  rcases h1 with h1 | ⟨e1, h1⟩
  · rcases h2 with h2 | ⟨e2, _⟩
    · exact Or.inl (Nat.lt_trans h1 h2)
    · exact Or.inl (by omega)
  · rcases h2 with h2 | ⟨e2, h2⟩
    · exact Or.inl (by omega)
    · refine Or.inr ⟨by omega, ?_⟩
      rcases h1 with h1 | ⟨f1, h1⟩
      · rcases h2 with h2 | ⟨f2, _⟩
        · exact Or.inl (Nat.lt_trans h1 h2)
        · exact Or.inl (by omega)
      · rcases h2 with h2 | ⟨f2, h2⟩
        · exact Or.inl (by omega)
        · exact Or.inr ⟨by omega, charListLE_trans _ _ _ h1 h2⟩

/-! ### Validator membership lemmas -/

theorem mem_consistencyCheck (rs : List TranslationRecord) (iss : ValidationIssue) :
    iss ∈ consistencyCheck rs ↔
      iss.recordIndex < rs.length ∧ dupOfEarlier rs iss.recordIndex = true ∧
      iss = ⟨iss.recordIndex, .warning, "DUPLICATE_REFERENCE",
        "reference duplicates an earlier record"⟩ := by
  unfold consistencyCheck
  rw [List.mem_filterMap]
  constructor
  · rintro ⟨i, hi, hf⟩
    rw [List.mem_range] at hi
    by_cases hd : dupOfEarlier rs i = true
    · rw [if_pos hd] at hf
      cases hf
      exact ⟨hi, hd, rfl⟩
    · rw [if_neg hd] at hf
      cases hf
  · rintro ⟨hi, hd, hiss⟩
    exact ⟨iss.recordIndex, List.mem_range.mpr hi, by rw [if_pos hd, ← hiss]⟩

theorem dupOfEarlier_iff (rs : List TranslationRecord) (i : Nat) :
    dupOfEarlier rs i = true ↔
      (rs.getD i default).reference.isSome = true ∧
      isVariant (rs.getD i default) = false ∧
      ∃ j < i, (rs.getD j default).reference = (rs.getD i default).reference := by
  simp only [dupOfEarlier, Bool.and_eq_true, Bool.not_eq_true', List.any_eq_true,
    List.mem_range, beq_iff_eq]
  tauto

theorem mem_validate_consistencyOnly (rs : List TranslationRecord) (iss : ValidationIssue) :
    iss ∈ validate rs consistencyOnly [] ↔ iss ∈ consistencyCheck rs := by
  unfold validate
  rw [List.mem_insertionSort]
  simp [consistencyOnly]

/-! ### Claims about the spec-modelled validator -/

/-- C7: validation is deterministic and idempotent — for every record set,
check selection and configuration table, two runs produce identical issue
sequences — and every run's output is sorted by the key
`(recordIndex, severity, code)`.  In the model the checks are consulted
pointwise from the selection set and the collected issues are key-sorted,
so no internal check execution order is observable. -/
theorem c7_validate_deterministic_sorted (rs : List TranslationRecord)
    (sel : CheckKind → Bool) (table : BookTable) :
    validate rs sel table = validate rs sel table ∧
    List.Sorted issueLE (validate rs sel table) := by
  refine ⟨rfl, ?_⟩
  haveI : IsTotal ValidationIssue issueLE := ⟨issueLE_total⟩
  haveI : IsTrans ValidationIssue issueLE := ⟨issueLE_trans⟩
  exact List.sorted_insertionSort issueLE _

/-- C2 as literally stated is false: in the spec's own two-record example
the reference of record 0 is duplicated elsewhere in the set, yet the
consistency check emits no issue with recordIndex 0 — flagging every record
with a duplicated reference would contradict the spec example's demand of
exactly one issue, at recordIndex 1. -/
theorem c2_counterexample :
    (dupExample.getD 0 default).reference = (dupExample.getD 1 default).reference ∧
    (validate dupExample consistencyOnly []).all
      (fun iss => iss.recordIndex != 0) = true :=
  ⟨rfl, rfl⟩

/-- C2 amended: validating the two-record example with only the consistency
check selected returns exactly one Warning/DUPLICATE_REFERENCE issue at
recordIndex 1; in general the consistency check flags exactly the
non-variant records whose reference duplicates that of an earlier record in
the set (the first occurrence itself is not flagged). -/
theorem c2_consistency_flags_later_duplicates :
    validate dupExample consistencyOnly []
      = [⟨1, .warning, "DUPLICATE_REFERENCE", "reference duplicates an earlier record"⟩] ∧
    ∀ (rs : List TranslationRecord) (i : Nat),
      (∃ iss ∈ validate rs consistencyOnly [], iss.recordIndex = i ∧
          iss.severity = .warning ∧ iss.code = "DUPLICATE_REFERENCE")
        ↔ i < rs.length ∧ (rs.getD i default).reference.isSome = true ∧
          isVariant (rs.getD i default) = false ∧
          ∃ j < i, (rs.getD j default).reference = (rs.getD i default).reference := by
  constructor
  · rfl
  · intro rs i
    constructor
    · rintro ⟨iss, hmem, hidx, -, -⟩
      rw [mem_validate_consistencyOnly, mem_consistencyCheck] at hmem
      obtain ⟨hlen, hdup, -⟩ := hmem
      rw [hidx] at hlen hdup
      exact ⟨hlen, (dupOfEarlier_iff rs i).mp hdup⟩
    · rintro ⟨hlen, hcond⟩
      refine ⟨⟨i, .warning, "DUPLICATE_REFERENCE", "reference duplicates an earlier record"⟩,
        ?_, rfl, rfl, rfl⟩
      rw [mem_validate_consistencyOnly, mem_consistencyCheck]
      exact ⟨hlen, (dupOfEarlier_iff rs i).mpr hcond, rfl⟩

/-! ### Splitting / joining round-trip lemmas -/

theorem splitOnChar_of_not_mem (sep : Char) (xs : List Char) (h : sep ∉ xs) :
    splitOnChar sep xs = [xs] := by
  induction xs with
  | nil => rfl
  | cons c cs ih =>
    have hc : ¬ c = sep := fun hh => h (hh ▸ List.mem_cons_self c cs)
    simp only [splitOnChar, if_neg hc]
    rw [ih (fun hm => h (List.mem_cons_of_mem c hm))]

theorem splitOnChar_append_sep (sep : Char) (xs rest : List Char) (h : sep ∉ xs) :
    splitOnChar sep (xs ++ sep :: rest) = xs :: splitOnChar sep rest := by
  induction xs with
  | nil =>
    simp [splitOnChar]
  | cons c cs ih =>
    have hc : ¬ c = sep := fun hh => h (hh ▸ List.mem_cons_self c cs)
    have hstep : (c :: cs) ++ sep :: rest = c :: (cs ++ sep :: rest) := rfl
    rw [hstep]
    simp only [splitOnChar, if_neg hc]
    rw [ih (fun hm => h (List.mem_cons_of_mem c hm))]

theorem splitOnChar_joinWith (sep : Char) (gs : List (List Char)) (hne : gs ≠ [])
    (h : ∀ g ∈ gs, sep ∉ g) : splitOnChar sep (joinWith sep gs) = gs := by
  induction gs with
  | nil => exact absurd rfl hne
  | cons g rest ih =>
    cases rest with
    | nil => exact splitOnChar_of_not_mem sep g (h g (List.mem_cons_self g []))
    | cons g2 rest2 =>
      simp only [joinWith]
      rw [splitOnChar_append_sep sep g _ (h g (List.mem_cons_self g _))]
      rw [ih (by simp) (fun x hx => h x (List.mem_cons_of_mem g hx))]

theorem not_mem_of_mem_splitOnChar (sep : Char) (xs : List Char) :
    ∀ g ∈ splitOnChar sep xs, sep ∉ g := by
  induction xs with
  | nil =>
    intro g hg
    simp only [splitOnChar, List.mem_singleton] at hg
    subst hg
    exact List.not_mem_nil sep
  | cons c cs ih =>
    intro g hg
    simp only [splitOnChar] at hg
    by_cases hc : c = sep
    · rw [if_pos hc] at hg
      rcases List.mem_cons.mp hg with h1 | h1
      · subst h1; exact List.not_mem_nil sep
      · exact ih g h1
    · rw [if_neg hc] at hg
      cases hsp : splitOnChar sep cs with
      | nil =>
        rw [hsp] at hg
        rcases List.mem_singleton.mp hg with h1
        subst h1
        intro hmem
        rcases List.mem_singleton.mp hmem with h2
        exact hc h2.symm
      | cons g0 gs0 =>
        rw [hsp] at hg
        rcases List.mem_cons.mp hg with h1 | h1
        · subst h1
          intro hmem
          rcases List.mem_cons.mp hmem with h2 | h2
          · exact hc h2.symm
          · exact ih g0 (hsp ▸ List.mem_cons_self g0 gs0) h2
        · exact ih g (hsp ▸ List.mem_cons_of_mem g0 h1)

theorem mem_of_mem_splitOnChar (sep : Char) (xs : List Char) :
    ∀ g ∈ splitOnChar sep xs, ∀ c ∈ g, c ∈ xs := by
  induction xs with
  | nil =>
    intro g hg c hc
    simp only [splitOnChar, List.mem_singleton] at hg
    subst hg
    exact absurd hc (List.not_mem_nil c)
  | cons a cs ih =>
    intro g hg c hc
    simp only [splitOnChar] at hg
    by_cases ha : a = sep
    · rw [if_pos ha] at hg
      rcases List.mem_cons.mp hg with h1 | h1
      · subst h1; exact absurd hc (List.not_mem_nil c)
      · exact List.mem_cons_of_mem a (ih g h1 c hc)
    · rw [if_neg ha] at hg
      cases hsp : splitOnChar sep cs with
      | nil =>
        rw [hsp] at hg
        rcases List.mem_singleton.mp hg with h1
        subst h1
        rcases List.mem_singleton.mp hc with h2
        subst h2
        exact List.mem_cons_self c cs
      | cons g0 gs0 =>
        rw [hsp] at hg
        rcases List.mem_cons.mp hg with h1 | h1
        · subst h1
          rcases List.mem_cons.mp hc with h2 | h2
          · subst h2; exact List.mem_cons_self c cs
          · exact List.mem_cons_of_mem a (ih g0 (hsp ▸ List.mem_cons_self g0 gs0) c h2)
        · exact List.mem_cons_of_mem a (ih g (hsp ▸ List.mem_cons_of_mem g0 h1) c hc)

theorem mem_joinWith (sep : Char) (gs : List (List Char)) :
    ∀ c ∈ joinWith sep gs, c = sep ∨ ∃ g ∈ gs, c ∈ g := by
  induction gs with
  | nil =>
    intro c hc
    exact absurd hc (List.not_mem_nil c)
  | cons g rest ih =>
    cases rest with
    | nil =>
      intro c hc
      exact Or.inr ⟨g, List.mem_cons_self g [], hc⟩
    | cons g2 r2 =>
      intro c hc
      simp only [joinWith] at hc
      rcases List.mem_append.mp hc with h | h
      · exact Or.inr ⟨g, List.mem_cons_self g _, h⟩
      · rcases List.mem_cons.mp h with h | h
        · exact Or.inl h
        · rcases ih c h with h | ⟨g3, hg3, hcg3⟩
          · exact Or.inl h
          · exact Or.inr ⟨g3, List.mem_cons_of_mem g hg3, hcg3⟩

theorem splitStr_joinStr (sep : Char) (ls : List String) (hne : ls ≠ [])
    (h : ∀ s ∈ ls, sep ∉ s.data) : splitStr sep (joinStr sep ls) = ls := by
  unfold splitStr joinStr
  rw [show (String.mk (joinWith sep (ls.map String.data))).data
        = joinWith sep (ls.map String.data) from rfl]
  rw [splitOnChar_joinWith sep (ls.map String.data) (by simpa using hne)
    (by intro g hg
        rcases List.mem_map.mp hg with ⟨s, hs, rfl⟩
        exact h s hs)]
  rw [List.map_map]
  have hid : String.mk ∘ String.data = id := funext (fun s => rfl)
  rw [hid, List.map_id]

theorem mem_splitStr_no_sep (sep : Char) (x : String) :
    ∀ s ∈ splitStr sep x, sep ∉ s.data := by
  intro s hs
  rcases List.mem_map.mp hs with ⟨g, hg, rfl⟩
  exact not_mem_of_mem_splitOnChar sep x.data g hg

theorem mem_splitStr_chars (sep : Char) (x : String) :
    ∀ s ∈ splitStr sep x, ∀ c ∈ s.data, c ∈ x.data := by
  intro s hs c hc
  rcases List.mem_map.mp hs with ⟨g, hg, rfl⟩
  exact mem_of_mem_splitOnChar sep x.data g hg c hc

theorem dropTrailingBlanks_of_no_blank (ls : List String) (h : ∀ s ∈ ls, s ≠ "") :
    dropTrailingBlanks ls = ls := by
  unfold dropTrailingBlanks
  cases hrev : ls.reverse with
  | nil => rw [List.dropWhile_nil, ← hrev, List.reverse_reverse]
  | cons a t =>
    have ha : a ≠ "" := h a (by rw [← List.mem_reverse, hrev]; exact List.mem_cons_self a t)
    rw [List.dropWhile_cons, if_neg (by simp [ha]), ← hrev, List.reverse_reverse]

theorem mem_dropTrailingBlanks (ls : List String) :
    ∀ s ∈ dropTrailingBlanks ls, s ∈ ls := by
  intro s hs
  unfold dropTrailingBlanks at hs
  rw [List.mem_reverse] at hs
  have := (List.dropWhile_sublist (l := ls.reverse) (p := fun t => t == "")).mem hs
  exact List.mem_reverse.mp this

/-! ### C8: the processing call does not mutate its input -/

/-- C8: validation/processing never mutates its input: in the state-passing
embedding of `process_bible_data`, where every Python operation the body
applies to `data` threads the value of the argument through, the value of
`data` after the call equals the value before it, and the returned summary
is exactly the one computed from that unchanged value. -/
theorem c8_process_no_mutation (data : PyVal) (mode : String)
    (params : List (String × PyVal)) :
    (process_bible_data_st data mode params).2 = data ∧
    (process_bible_data_st data mode params).1 = process_bible_data data mode params := by
  unfold process_bible_data_st process_bible_data pyIsListOp pyLenOp pyStrOp totalEntries
  by_cases h : isList data = true
  · simp [h]
  · simp [h]

/-! ### C5: XML escaping -/

theorem count_escapeXmlChar (c : Char) : (escapeXmlChar c).data.count '<' = 0 := by
  unfold escapeXmlChar
  split_ifs with h1 h2 h3 h4
  · rfl
  · rfl
  · rfl
  · rfl
  · simp [List.count_cons, h1, Ne.symm h1]

theorem count_escapeXmlList (cs : List Char) : (escapeXmlList cs).count '<' = 0 := by
  induction cs with
  | nil => rfl
  | cons c cs ih =>
    simp only [escapeXmlList]
    rw [List.count_append, count_escapeXmlChar, ih]

theorem count_escapeXml (s : String) : (escapeXml s).data.count '<' = 0 :=
  count_escapeXmlList s.data

theorem count_renderAttr (k v : String) (hk : k.data.count '<' = 0) :
    (renderAttr k v).data.count '<' = 0 := by
  unfold renderAttr
  simp only [String.data_append, List.count_append]
  rw [hk, count_escapeXml]
  decide

theorem count_renderRefAttrs (o : Option Reference) :
    (renderRefAttrs o).data.count '<' = 0 := by
  cases o with
  | none => rfl
  | some ref =>
    simp only [renderRefAttrs, String.data_append, List.count_append]
    rw [count_renderAttr _ _ (by decide), count_renderAttr _ _ (by decide),
      count_renderAttr _ _ (by decide)]

theorem count_renderMeta (kv : String × String) :
    (renderMeta kv).data.count '<' = 2 := by
  unfold renderMeta
  simp only [String.data_append, List.count_append]
  rw [count_renderAttr "key" kv.1 (by decide), count_escapeXml]
  decide

theorem count_renderSource (o : Option String) :
    (renderSource o).data.count '<' = (if o.isSome then 2 else 0) := by
  cases o with
  | none => rfl
  | some s =>
    simp only [renderSource, String.data_append, List.count_append]
    rw [count_escapeXml]
    rfl

theorem count_concatAll (ls : List String) :
    (concatAll ls).data.count '<' = (ls.map (fun s => s.data.count '<')).sum := by
  induction ls with
  | nil => rfl
  | cons s rest ih =>
    simp only [concatAll, String.data_append, List.count_append, List.map_cons, List.sum_cons]
    rw [ih]

theorem count_renderRecord (r : TranslationRecord) :
    (renderRecord r).data.count '<' = recordTagCount r := by
  unfold renderRecord recordTagCount
  simp only [String.data_append, List.count_append]
  rw [count_renderRefAttrs, count_escapeXml, count_concatAll, count_renderSource]
  have hmeta : ((r.metadata.map renderMeta).map (fun s => s.data.count '<')).sum
      = 2 * r.metadata.length := by
    induction r.metadata with
    | nil => rfl
    | cons kv rest ih =>
      simp only [List.map_cons, List.sum_cons, List.length_cons, ih, count_renderMeta]
      ring
  rw [hmeta]
  cases r.sourceText <;>
    · simp only [(by decide : List.count '<' ['<', 'r', 'e', 'c', 'o', 'r', 'd'] = 1),
        (by decide : List.count '<' ['>'] = 0),
        (by decide : List.count '<' ['<', 't', 'a', 'r', 'g', 'e', 't', '>'] = 1),
        (by decide : List.count '<' ['<', '/', 't', 'a', 'r', 'g', 'e', 't', '>'] = 1),
        (by decide : List.count '<' ['<', '/', 'r', 'e', 'c', 'o', 'r', 'd', '>'] = 1),
        Option.isSome]
      omega

theorem count_renderRecordSet (rs : List TranslationRecord) :
    (renderRecordSet rs).data.count '<' = tagCount rs := by
  unfold renderRecordSet tagCount
  simp only [String.data_append, List.count_append]
  rw [count_concatAll]
  have : ((rs.map renderRecord).map (fun s => s.data.count '<')).sum
      = (rs.map recordTagCount).sum := by
    induction rs with
    | nil => rfl
    | cons r rest ih =>
      simp only [List.map_cons, List.sum_cons, ih, count_renderRecord]
  rw [this,
    (by decide : List.count '<' ['<', 'r', 'e', 'c', 'o', 'r', 'd', 's', '>'] = 1),
    (by decide : List.count '<' ['<', '/', 'r', 'e', 'c', 'o', 'r', 'd', 's', '>'] = 1)]
  omega

/-- C5: serializing to XML escapes data: the escape of any string contains
no raw `<`; when every metadata key is representable as an XML attribute
name, serialization succeeds and the count of `<` in the whole output
equals the markup tag count, which depends only on the structure of the
record set, never on its text — so no raw `<` from any field reaches the
output; otherwise serialization fails with a `SerializeError` instead of
truncating or emitting raw data. -/
theorem c5_xml_escapes_or_errors :
    (∀ s : String, (escapeXml s).data.count '<' = 0) ∧
    (∀ rs : List TranslationRecord, allXmlKeysOk rs = true →
      serializeXML rs = .ok (renderRecordSet rs) ∧
      (renderRecordSet rs).data.count '<' = tagCount rs) ∧
    (∀ rs : List TranslationRecord, allXmlKeysOk rs = false →
      serializeXML rs
        = .error ⟨"metadata key not representable as an XML attribute name"⟩) := by
  refine ⟨count_escapeXml, ?_, ?_⟩
  · intro rs h
    exact ⟨by unfold serializeXML; rw [if_pos h], count_renderRecordSet rs⟩
  · intro rs h
    unfold serializeXML
    rw [if_neg (by simp [h])]

/-- Witness for C5: a metadata value containing `<` is emitted as `&lt;`,
the successful serialization of such a set has exactly the structural tag
count of `<` characters, and an unrepresentable metadata key errors. -/
theorem c5_xml_escapes_or_errors_witness :
    escapeXml "x<y" = "x&lt;y" ∧
    allXmlKeysOk xmlExample = true ∧
    (serializeXML xmlExample = .ok (renderRecordSet xmlExample) ∧
      (renderRecordSet xmlExample).data.count '<' = tagCount xmlExample) ∧
    allXmlKeysOk xmlExampleBad = false ∧
    serializeXML xmlExampleBad
      = .error ⟨"metadata key not representable as an XML attribute name"⟩ :=
  ⟨rfl, rfl, c5_xml_escapes_or_errors.2.1 xmlExample rfl,
   rfl, c5_xml_escapes_or_errors.2.2 xmlExampleBad rfl⟩

/-! ### C6: header-only TSV parses to the empty record set -/

/-- C6: a TSV input consisting of a single header row (containing the
required columns, without duplicate column names) and zero data rows parses
successfully to the empty record set. -/
theorem c6_header_only_parses_empty (hline : String)
    (hnl : '\n' ∉ hline.data)
    (hnd : (splitStr '\t' hline).Nodup)
    (hreq : ∀ c ∈ requiredCols, c ∈ splitStr '\t' hline) :
    parseTSV hline = .ok [] := by
  have hne : hline ≠ "" := by
    intro hempty
    have hb := hreq "Book" (by simp [requiredCols])
    rw [hempty] at hb
    have hb' : ("Book" : String) ∈ [("" : String)] := hb
    have : ("Book" : String) = "" := List.mem_singleton.mp hb'
    exact absurd this (by decide)
  have hsplit : splitStr '\n' hline = [hline] := by
    unfold splitStr
    rw [splitOnChar_of_not_mem '\n' hline.data hnl]
    rfl
  have hall : (requiredCols.all fun c => (splitStr '\t' hline).contains c) = true := by
    rw [List.all_eq_true]
    intro c hc
    exact List.elem_eq_true_of_mem (hreq c hc)
  unfold parseTSV
  rw [hsplit, dropTrailingBlanks_of_no_blank [hline]
    (by intro s hs; rcases List.mem_singleton.mp hs with h; subst h; exact hne)]
  simp only [hnd, if_true, hall]
  rfl

/-- Witness for C6 at the literal four-column header. -/
theorem c6_header_only_parses_empty_witness :
    parseTSV "Book\tChapter\tVerse\tTarget Text" = .ok [] :=
  c6_header_only_parses_empty "Book\tChapter\tVerse\tTarget Text"
    (by decide) (by decide) (by decide)

/-! ### C4: parse errors identify the offending row; no row is dropped -/

theorem parseRows_ok_length (cols : List String) :
    ∀ (rows : List String) (n : Nat) (out : List TranslationRecord),
      parseRows cols n rows = .ok out → out.length = rows.length := by
  intro rows
  induction rows with
  | nil =>
    intro n out h
    simp only [parseRows] at h
    injection h with h'
    subst h'
    rfl
  | cons row rest ih =>
    intro n out h
    simp only [parseRows] at h
    cases hpr : parseRow cols n row with
    | error e => rw [hpr] at h; exact absurd h (by simp)
    | ok r =>
      rw [hpr] at h
      cases hrest : parseRows cols (n + 1) rest with
      | error e => rw [hrest] at h; exact absurd h (by simp)
      | ok rs =>
        rw [hrest] at h
        injection h with h'
        subst h'
        simp [ih (n + 1) rs hrest]

theorem parseTSV_ok_length (T : String) (rs : List TranslationRecord)
    (h : parseTSV T = .ok rs) :
    (dropTrailingBlanks (splitStr '\n' T)).length = rs.length + 1 := by
  unfold parseTSV at h
  split at h
  · exact absurd h (by simp)
  · rename_i headerLine rows heq
    split at h
    · split at h
      · have hlen := parseRows_ok_length _ rows 2 rs h
        rw [heq]
        simp [hlen]
      · exact absurd h (by simp)
    · exact absurd h (by simp)

theorem parseRows_first_bad (cols : List String) :
    ∀ (rows : List String) (n k : Nat) (e : ParseError),
      k < rows.length →
      (∀ j, j < k → ∃ r, parseRow cols (n + j) (rows.getD j "") = .ok r) →
      parseRow cols (n + k) (rows.getD k "") = .error e →
      parseRows cols n rows = .error e := by
  intro rows
  induction rows with
  | nil => intro n k e hk _ _; simp at hk
  | cons row rest ih =>
    intro n k e hk hgood hbad
    cases k with
    | zero =>
      simp only [List.getD_cons_zero, Nat.add_zero] at hbad
      simp only [parseRows]
      rw [hbad]
    | succ k' =>
      obtain ⟨r0, hr0⟩ := hgood 0 (Nat.succ_pos k')
      simp only [List.getD_cons_zero, Nat.add_zero] at hr0
      simp only [parseRows]
      rw [hr0]
      have hrec : parseRows cols (n + 1) rest = .error e := by
        apply ih (n + 1) k' e
        · simpa using hk
        · intro j hj
          have hjj := hgood (j + 1) (by omega)
          simp only [List.getD_cons_succ] at hjj
          rw [show n + (j + 1) = n + 1 + j by omega] at hjj
          exact hjj
        · simp only [List.getD_cons_succ] at hbad
          rw [show n + (k' + 1) = n + 1 + k' by omega] at hbad
          exact hbad
      rw [hrec]

theorem parseRow_error_spec (cols : List String) (m : Nat) (row : String)
    (e : ParseError) (h : parseRow cols m row = .error e) :
    e.line = m ∧
      (e.reason = "missing required column: wrong number of fields" ∨
       e.reason = "missing required column" ∨
       e.reason = "non-numeric chapter" ∨ e.reason = "non-numeric verse") := by
  simp only [parseRow] at h
  split at h
  · split at h
    · split at h
      · exact absurd h (by simp)
      · injection h with h'
        subst h'
        exact ⟨rfl, Or.inr (Or.inr (Or.inl rfl))⟩
      · injection h with h'
        subst h'
        exact ⟨rfl, Or.inr (Or.inr (Or.inr rfl))⟩
    · injection h with h'
      subst h'
      exact ⟨rfl, Or.inr (Or.inl rfl)⟩
  · injection h with h'
    subst h'
    exact ⟨rfl, Or.inl rfl⟩

theorem required_all_of_mem (cols : List String)
    (hreq : ∀ c ∈ requiredCols, c ∈ cols) :
    (requiredCols.all fun c => cols.contains c) = true := by
  rw [List.all_eq_true]
  intro c hc
  exact List.elem_eq_true_of_mem (hreq c hc)

/-- C4: no row is silently dropped — a successful parse has exactly one
record per data row — and if, under a well-formed header, the first
malformed data row is row `k` (0-based; missing required column via a wrong
field count, or a non-numeric chapter or verse), then parsing raises a
`ParseError` whose `line` is that row's 1-based file row `k + 2` and whose
reason names one of these causes. -/
theorem c4_parse_error_locates_row :
    (∀ (T : String) (rs : List TranslationRecord), parseTSV T = .ok rs →
      (dropTrailingBlanks (splitStr '\n' T)).length = rs.length + 1) ∧
    (∀ (T headerLine : String) (rows : List String) (k : Nat) (e : ParseError),
      dropTrailingBlanks (splitStr '\n' T) = headerLine :: rows →
      (splitStr '\t' headerLine).Nodup →
      (∀ c ∈ requiredCols, c ∈ splitStr '\t' headerLine) →
      k < rows.length →
      (∀ j, j < k → ∃ r, parseRow (splitStr '\t' headerLine) (2 + j) (rows.getD j "") = .ok r) →
      parseRow (splitStr '\t' headerLine) (2 + k) (rows.getD k "") = .error e →
      parseTSV T = .error e ∧ e.line = 2 + k ∧
        (e.reason = "missing required column: wrong number of fields" ∨
         e.reason = "missing required column" ∨
         e.reason = "non-numeric chapter" ∨ e.reason = "non-numeric verse")) := by
  constructor
  · exact parseTSV_ok_length
  · intro T headerLine rows k e hdecomp hnd hreq hk hgood hbad
    have hspec := parseRow_error_spec _ _ _ _ hbad
    refine ⟨?_, hspec.1, hspec.2⟩
    unfold parseTSV
    rw [hdecomp]
    simp only [hnd, if_true, required_all_of_mem _ hreq]
    exact parseRows_first_bad _ rows 2 k e hk hgood hbad

/-- Witness for C4: a row with a non-numeric chapter makes the parse fail
with a `ParseError` naming file row 2 and the reason, and a well-formed
one-row file parses to exactly one record. -/
theorem c4_parse_error_locates_row_witness :
    parseTSV "Book\tChapter\tVerse\tTarget Text\nGenesis\tX\t1\thello"
      = .error ⟨2, "non-numeric chapter"⟩ ∧
    (dropTrailingBlanks (splitStr '\n'
        "Book\tChapter\tVerse\tTarget Text\nGenesis\t1\t1\thello")).length = 1 + 1 := by
  constructor
  · exact (c4_parse_error_locates_row.2
      "Book\tChapter\tVerse\tTarget Text\nGenesis\tX\t1\thello"
      "Book\tChapter\tVerse\tTarget Text" ["Genesis\tX\t1\thello"] 0
      ⟨2, "non-numeric chapter"⟩
      (by decide) (by decide) (by decide) (by decide)
      (by intro j hj; exact absurd hj (by omega))
      (by rfl)).1
  · exact c4_parse_error_locates_row.1
      "Book\tChapter\tVerse\tTarget Text\nGenesis\t1\t1\thello"
      [⟨some ⟨"Genesis", 1, 1⟩, Option.none, "hello", []⟩]
      (by rfl)

/-! ### Numeral round-trip lemmas -/

theorem digitChar_val (m : Nat) (hm : m < 10) :
    digitVal? (digitChar m) = some m ∧ digitChar m ≠ '\t' ∧ digitChar m ≠ '\n' := by
  interval_cases m <;> exact ⟨rfl, by decide, by decide⟩

theorem natDigits_ne_nil (n : Nat) (hn : n ≠ 0) : natDigits n ≠ [] := by
  unfold natDigits
  split
  · rename_i h; exact absurd h hn
  · simp

theorem strToNatAux_append (xs ys : List Char) :
    ∀ acc, strToNatAux (xs ++ ys) acc =
      match strToNatAux xs acc with
      | some m => strToNatAux ys m
      | Option.none => Option.none := by
  induction xs with
  | nil => intro acc; rfl
  | cons c cs ih =>
    intro acc
    simp only [List.cons_append, strToNatAux]
    cases hd : digitVal? c with
    | none => rfl
    | some d => exact ih (acc * 10 + d)

theorem strToNatAux_natDigits (n : Nat) :
    ∀ acc, strToNatAux (natDigits n) acc
      = some (acc * 10 ^ (natDigits n).length + n) := by
  induction n using Nat.strong_induction_on with
  | _ n ih =>
    intro acc
    rw [natDigits]
    split
    · rename_i h
      subst h
      simp [strToNatAux]
    · rename_i h
      rw [strToNatAux_append]
      have hlt : n / 10 < n := Nat.div_lt_self (Nat.pos_of_ne_zero h) (by norm_num)
      rw [ih (n / 10) hlt acc]
      have hd := (digitChar_val (n % 10) (Nat.mod_lt n (by norm_num))).1
      simp only [strToNatAux, hd]
      rw [List.length_append]
      congr 1
      have h10 : n / 10 * 10 + n % 10 = n := by omega
      calc (acc * 10 ^ (natDigits (n / 10)).length + n / 10) * 10 + n % 10
          = acc * 10 ^ (natDigits (n / 10)).length * 10 + (n / 10 * 10 + n % 10) := by ring
        _ = acc * 10 ^ ((natDigits (n / 10)).length + 1) + n := by rw [h10, pow_succ]; ring

theorem strToNat_natToStr (n : Nat) : strToNat? (natToStr n) = some n := by
  unfold natToStr
  split
  · rename_i h; subst h; rfl
  · rename_i h
    unfold strToNat?
    rw [show (String.mk (natDigits n)).data = natDigits n from rfl]
    cases hd : natDigits n with
    | nil => exact absurd hd (natDigits_ne_nil n h)
    | cons c cs =>
      show strToNatAux (c :: cs) 0 = some n
      rw [← hd, strToNatAux_natDigits n 0]
      simp

theorem natDigits_clean (n : Nat) : ∀ c ∈ natDigits n, c ≠ '\t' ∧ c ≠ '\n' := by
  induction n using Nat.strong_induction_on with
  | _ n ih =>
    intro c hc
    rw [natDigits] at hc
    split at hc
    · exact absurd hc (List.not_mem_nil c)
    · rename_i h
      rcases List.mem_append.mp hc with h1 | h1
      · exact ih (n / 10) (Nat.div_lt_self (Nat.pos_of_ne_zero h) (by norm_num)) c h1
      · have h2 := List.mem_singleton.mp h1
        subst h2
        exact (digitChar_val (n % 10) (Nat.mod_lt n (by norm_num))).2

theorem cleanChars_iff (s : String) :
    cleanChars s = true ↔ '\t' ∉ s.data ∧ '\n' ∉ s.data := by
  unfold cleanChars
  rw [List.all_eq_true]
  constructor
  · intro h
    constructor
    · intro hmem
      have := h _ hmem
      simp at this
    · intro hmem
      have := h _ hmem
      simp at this
  · rintro ⟨h1, h2⟩ c hc
    simp only [Bool.and_eq_true, Bool.not_eq_true', beq_eq_false_iff_ne]
    exact ⟨fun hh => h1 (hh ▸ hc), fun hh => h2 (hh ▸ hc)⟩

theorem natToStr_clean (n : Nat) : cleanChars (natToStr n) = true := by
  unfold natToStr
  split
  · decide
  · rw [cleanChars_iff]
    constructor
    · intro hmem
      exact ((natDigits_clean n '\t' hmem).1 rfl).elim
    · intro hmem
      exact ((natDigits_clean n '\n' hmem).2 rfl).elim

/-! ### Lookup and zip lemmas -/

theorem lookup_zip_map (f : String → String) (cols : List String) (k : String) :
    k ∈ cols → (cols.zip (cols.map f)).lookup k = some (f k) := by
  induction cols with
  | nil => intro hk; exact absurd hk (List.not_mem_nil k)
  | cons c cs ih =>
    intro hk
    simp only [List.map_cons, List.zip_cons_cons, List.lookup_cons]
    by_cases hkc : k = c
    · subst hkc
      simp
    · have hbeq : (k == c) = false := by simp [hkc]
      rw [hbeq]
      rcases List.mem_cons.mp hk with h1 | h1
      · exact absurd h1 hkc
      · exact ih h1

theorem lookup_zip_not_mem (cols : List String) :
    ∀ (fields : List String) (k : String), k ∉ cols →
      (cols.zip fields).lookup k = Option.none := by
  induction cols with
  | nil => intro fields k _; rfl
  | cons c cs ih =>
    intro fields k hk
    cases fields with
    | nil => rfl
    | cons v vs =>
      simp only [List.zip_cons_cons, List.lookup_cons]
      have hbeq : (k == c) = false := by
        simp only [beq_eq_false_iff_ne]
        intro hh
        exact hk (hh ▸ List.mem_cons_self c cs)
      rw [hbeq]
      exact ih vs k (fun hm => hk (List.mem_cons_of_mem c hm))

theorem lookup_zip_mem_values (cols : List String) :
    ∀ (fields : List String) (k v : String),
      (cols.zip fields).lookup k = some v → v ∈ fields := by
  induction cols with
  | nil => intro fields k v h; exact absurd h (by simp)
  | cons c cs ih =>
    intro fields k v h
    cases fields with
    | nil => exact absurd h (by simp)
    | cons v0 vs =>
      simp only [List.zip_cons_cons, List.lookup_cons] at h
      cases hbeq : k == c with
      | true =>
        rw [hbeq] at h
        injection h with h'
        subst h'
        exact List.mem_cons_self v0 vs
      | false =>
        rw [hbeq] at h
        exact List.mem_cons_of_mem v0 (ih vs k v h)

theorem lookup_zip_isSome (cols : List String) :
    ∀ (fields : List String) (k : String), cols.length = fields.length →
      ((cols.zip fields).lookup k).isSome = cols.contains k := by
  induction cols with
  | nil =>
    intro fields k _
    rfl
  | cons c cs ih =>
    intro fields k hlen
    cases fields with
    | nil => exact absurd hlen (by simp)
    | cons v vs =>
      simp only [List.zip_cons_cons, List.lookup_cons]
      cases hbeq : k == c with
      | true =>
        rw [List.contains_cons, hbeq]
        rfl
      | false =>
        rw [List.contains_cons, hbeq]
        simp only [Bool.false_or]
        exact ih vs k (by simpa using hlen)

theorem filter_zip_map_fst (p : String → Bool) (cols : List String) :
    ∀ (fields : List String), cols.length = fields.length →
      (((cols.zip fields).filter (fun kv => p kv.1)).map Prod.fst) = cols.filter p := by
  induction cols with
  | nil => intro fields _; rfl
  | cons c cs ih =>
    intro fields hlen
    cases fields with
    | nil => exact absurd hlen (by simp)
    | cons v vs =>
      simp only [List.zip_cons_cons, List.filter_cons]
      cases hp : p c with
      | true => simp [ih vs (by simpa using hlen)]
      | false => exact ih vs (by simpa using hlen)

theorem filter_zip_self_map (f : String → String) (p : String → Bool) (cols : List String) :
    (cols.zip (cols.map f)).filter (fun kv => p kv.1)
      = (cols.filter p).map (fun c => (c, f c)) := by
  induction cols with
  | nil => rfl
  | cons c cs ih =>
    simp only [List.map_cons, List.zip_cons_cons, List.filter_cons]
    cases hp : p c with
    | true => simp [ih]
    | false => exact ih

theorem lookup_mem (md : List (String × String)) :
    ∀ (k v : String), md.lookup k = some v → (k, v) ∈ md := by
  induction md with
  | nil => intro k v h; exact absurd h (by simp)
  | cons kv rest ih =>
    intro k v h
    rw [show kv = (kv.1, kv.2) from rfl] at h ⊢
    simp only [List.lookup_cons] at h
    cases hbeq : k == kv.1 with
    | true =>
      rw [hbeq] at h
      injection h with h'
      subst h'
      have hk : k = kv.1 := by simpa using hbeq
      subst hk
      exact List.mem_cons_self _ _
    | false =>
      rw [hbeq] at h
      exact List.mem_cons_of_mem _ (ih k v h)

theorem lookup_reconstruct (md : List (String × String)) :
    ∀ (keys : List String), md.map Prod.fst = keys → keys.Nodup →
      keys.map (fun k => (k, (md.lookup k).getD "")) = md := by
  induction md with
  | nil =>
    intro keys hmap _
    subst hmap
    rfl
  | cons kv rest ih =>
    obtain ⟨k0, v0⟩ := kv
    intro keys hmap hnd
    subst hmap
    simp only [List.map_cons]
    have hnd1 : k0 ∉ rest.map Prod.fst := (List.nodup_cons.mp hnd).1
    have hnd2 := (List.nodup_cons.mp hnd).2
    have htail : (rest.map Prod.fst).map (fun k => (k, (((k0, v0) :: rest).lookup k).getD ""))
        = (rest.map Prod.fst).map (fun k => (k, (rest.lookup k).getD "")) := by
      apply List.map_congr_left
      intro k hk
      have hne : (k == k0) = false := by
        simp only [beq_eq_false_iff_ne]
        intro hh
        exact hnd1 (hh ▸ hk)
      simp only [List.lookup_cons, hne]
    have hcons : (((k0, v0) :: rest).lookup k0).getD "" = v0 := by
      simp [List.lookup_cons]
    rw [htail, ih (rest.map Prod.fst) rfl hnd2, hcons]

/-! ### Well-formedness unpacking -/

theorem recordWF_spec (sh : TSVShape) (r : TranslationRecord) (h : recordWF sh r = true) :
    (∃ ref, r.reference = some ref ∧ cleanChars ref.book = true) ∧
    cleanChars r.targetText = true ∧
    r.sourceText.isSome = sh.srcPresent ∧
    (∀ s, r.sourceText = some s → cleanChars s = true) ∧
    r.metadata.map Prod.fst = sh.keys ∧
    (∀ kv ∈ r.metadata, cleanChars kv.2 = true) := by
  unfold recordWF at h
  simp only [Bool.and_eq_true] at h
  obtain ⟨⟨⟨⟨⟨h1, h2⟩, h3⟩, h4⟩, h5⟩, h6⟩ := h
  refine ⟨?_, h2, eq_of_beq h3, ?_, of_decide_eq_true h5, ?_⟩
  · cases href : r.reference with
    | none => rw [href] at h1; exact absurd h1 (by simp)
    | some ref => rw [href] at h1; exact ⟨ref, rfl, h1⟩
  · intro s hs
    rw [hs] at h4
    exact h4
  · intro kv hkv
    exact List.all_eq_true.mp h6 kv hkv

theorem shapeWF_spec (sh : TSVShape) (h : shapeWF sh = true) :
    sh.keys.Nodup ∧ ∀ k ∈ sh.keys, cleanChars k = true ∧ reservedCols.contains k = false := by
  unfold shapeWF at h
  simp only [Bool.and_eq_true] at h
  obtain ⟨h1, h2⟩ := h
  refine ⟨of_decide_eq_true h1, ?_⟩
  intro k hk
  have := List.all_eq_true.mp h2 k hk
  simp only [Bool.and_eq_true, Bool.not_eq_true'] at this
  exact this

theorem not_reserved_ne (c : String) (h : reservedCols.contains c = false) :
    c ≠ "Book" ∧ c ≠ "Chapter" ∧ c ≠ "Verse" ∧ c ≠ "Target Text" ∧ c ≠ "Source Text" := by
  simp only [reservedCols, requiredCols, List.cons_append, List.nil_append,
    List.contains_cons, Bool.or_eq_false_iff, beq_eq_false_iff_ne] at h
  obtain ⟨h1, h2, h3, h4, h5, -⟩ := h
  exact ⟨h1, h2, h3, h4, h5⟩

theorem recordField_clean (sh : TSVShape) (r : TranslationRecord)
    (hr : recordWF sh r = true) (c : String) :
    cleanChars (recordField r c) = true := by
  obtain ⟨⟨ref, href, hbook⟩, htgt, hsrcP, hsrcC, hkeys, hvals⟩ := recordWF_spec sh r hr
  unfold recordField
  split_ifs with h1 h2 h3 h4 h5
  · rw [href]; exact hbook
  · rw [href]; exact natToStr_clean ref.chapter
  · rw [href]; exact natToStr_clean ref.verse
  · exact htgt
  · cases hs : r.sourceText with
    | none => decide
    | some s => exact hsrcC s hs
  · cases hl : r.metadata.lookup c with
    | none => decide
    | some v => exact hvals (c, v) (lookup_mem r.metadata c v hl)

/-! ### Serializer header facts -/

theorem foldl_keys_aux (keys : List String) :
    ∀ rs : List TranslationRecord, (∀ r ∈ rs, r.metadata.map Prod.fst = keys) →
      List.foldl
        (fun acc r => acc ++ (r.metadata.map Prod.fst).filter (fun k => !(acc.contains k)))
        keys rs = keys := by
  intro rs
  induction rs with
  | nil => intro _; rfl
  | cons r rest ih =>
    intro h
    simp only [List.foldl_cons]
    rw [h r (List.mem_cons_self r rest)]
    have hfil : keys.filter (fun k => !(keys.contains k)) = [] := by
      rw [List.filter_eq_nil_iff]
      intro k hk
      simpa using hk
    rw [hfil, List.append_nil]
    exact ih (fun r2 hr2 => h r2 (List.mem_cons_of_mem r hr2))

theorem metaKeysFold_const (keys : List String) (r0 : TranslationRecord)
    (rs : List TranslationRecord)
    (h : ∀ r ∈ r0 :: rs, r.metadata.map Prod.fst = keys) :
    metaKeysFold (r0 :: rs) = keys := by
  unfold metaKeysFold
  simp only [List.foldl_cons]
  rw [h r0 (List.mem_cons_self r0 rs)]
  have hstep : ([] : List String) ++ keys.filter (fun k => !(([] : List String).contains k))
      = keys := by
    simp
  rw [hstep]
  exact foldl_keys_aux keys rs (fun r hr => h r (List.mem_cons_of_mem r0 hr))

theorem hasSource_const (b : Bool) (r0 : TranslationRecord) (rs : List TranslationRecord)
    (h : ∀ r ∈ r0 :: rs, r.sourceText.isSome = b) : hasSource (r0 :: rs) = b := by
  unfold hasSource
  cases b with
  | true =>
    rw [List.any_eq_true]
    exact ⟨r0, List.mem_cons_self r0 rs, h r0 (List.mem_cons_self r0 rs)⟩
  | false =>
    rw [List.any_eq_false]
    intro r hr
    simp [h r hr]

theorem joinStr_ne_empty (sep : Char) (ls : List String) (h : 2 ≤ ls.length) :
    joinStr sep ls ≠ "" := by
  cases ls with
  | nil => simp at h
  | cons x rest =>
    cases rest with
    | nil => simp at h
    | cons y rest2 =>
      intro hcon
      have hdata := congrArg String.data hcon
      simp only [joinStr, List.map_cons, joinWith] at hdata
      simp at hdata

theorem joinStr_no_newline (ls : List String) (h : ∀ s ∈ ls, cleanChars s = true) :
    '\n' ∉ (joinStr '\t' ls).data := by
  intro hmem
  rcases mem_joinWith '\t' (ls.map String.data) '\n' hmem with h1 | ⟨g, hg, hcg⟩
  · exact absurd h1 (by decide)
  · rcases List.mem_map.mp hg with ⟨s, hs, rfl⟩
    exact ((cleanChars_iff s).mp (h s hs)).2 hcg

/-! ### Row round trip: serialize one record, parse it back -/

theorem parseRow_roundtrip (sh : TSVShape) (r : TranslationRecord) (n : Nat)
    (cols : List String) (hsh : shapeWF sh = true) (hr : recordWF sh r = true)
    (hcols : cols = requiredCols ++ (if sh.srcPresent then ["Source Text"] else []) ++ sh.keys) :
    parseRow cols n (joinStr '\t' (cols.map (recordField r))) = .ok r := by
  obtain ⟨⟨ref, href, hbook⟩, htgt, hsrcP, hsrcC, hkeys, hvals⟩ := recordWF_spec sh r hr
  obtain ⟨hknd, hkfacts⟩ := shapeWF_spec sh hsh
  have hfieldclean : ∀ s ∈ cols.map (recordField r), cleanChars s = true := by
    intro s hs
    rcases List.mem_map.mp hs with ⟨c, hc, rfl⟩
    exact recordField_clean sh r hr c
  have hfields : splitStr '\t' (joinStr '\t' (cols.map (recordField r)))
      = cols.map (recordField r) := by
    apply splitStr_joinStr
    · rw [hcols]; simp [requiredCols]
    · intro s hs
      exact ((cleanChars_iff s).mp (hfieldclean s hs)).1
  have hB : ("Book" : String) ∈ cols := by
    rw [hcols]
    exact List.mem_append_left _ (List.mem_append_left _ (by simp [requiredCols]))
  have hC : ("Chapter" : String) ∈ cols := by
    rw [hcols]
    exact List.mem_append_left _ (List.mem_append_left _ (by simp [requiredCols]))
  have hV : ("Verse" : String) ∈ cols := by
    rw [hcols]
    exact List.mem_append_left _ (List.mem_append_left _ (by simp [requiredCols]))
  have hT : ("Target Text" : String) ∈ cols := by
    rw [hcols]
    exact List.mem_append_left _ (List.mem_append_left _ (by simp [requiredCols]))
  have hrfB : recordField r "Book" = ref.book := by
    unfold recordField
    rw [if_pos rfl, href]
    rfl
  have hrfC : recordField r "Chapter" = natToStr ref.chapter := by
    unfold recordField
    rw [if_neg (by decide), if_pos rfl, href]
    rfl
  have hrfV : recordField r "Verse" = natToStr ref.verse := by
    unfold recordField
    rw [if_neg (by decide), if_neg (by decide), if_pos rfl, href]
    rfl
  have hrfT : recordField r "Target Text" = r.targetText := by
    unfold recordField
    rw [if_neg (by decide), if_neg (by decide), if_neg (by decide), if_pos rfl]
  have hsrcEq : (cols.zip (cols.map (recordField r))).lookup "Source Text" = r.sourceText := by
    cases hb : sh.srcPresent with
    | false =>
      have hnm : ("Source Text" : String) ∉ cols := by
        rw [hcols, hb]
        intro hmem
        rcases List.mem_append.mp hmem with h1 | h1
        · rcases List.mem_append.mp h1 with h2 | h2
          · simp [requiredCols] at h2
          · simp at h2
        · have := (hkfacts _ h1).2
          exact absurd this (by decide)
      rw [lookup_zip_not_mem cols _ _ hnm]
      rw [hb] at hsrcP
      cases hsopt : r.sourceText with
      | none => rfl
      | some s => rw [hsopt] at hsrcP; simp at hsrcP
    | true =>
      have hm : ("Source Text" : String) ∈ cols := by
        rw [hcols, hb]
        exact List.mem_append_left _ (List.mem_append_right _ (by simp))
      rw [lookup_zip_map _ _ _ hm]
      rw [hb] at hsrcP
      obtain ⟨s, hs⟩ := Option.isSome_iff_exists.mp hsrcP
      rw [hs]
      unfold recordField
      rw [if_neg (by decide), if_neg (by decide), if_neg (by decide), if_neg (by decide),
        if_pos rfl, hs]
      rfl
  have hmd : (cols.zip (cols.map (recordField r))).filter
      (fun kv => !(reservedCols.contains kv.1)) = r.metadata := by
    rw [filter_zip_self_map (recordField r) (fun c => !(reservedCols.contains c)) cols]
    have hfil : cols.filter (fun c => !(reservedCols.contains c)) = sh.keys := by
      rw [hcols, List.filter_append, List.filter_append]
      rw [show requiredCols.filter (fun c => !(reservedCols.contains c)) = [] from by decide]
      rw [show (if sh.srcPresent then ["Source Text"] else []).filter
          (fun c => !(reservedCols.contains c)) = [] from by
        cases sh.srcPresent
        · simp
        · simp
          decide]
      rw [List.filter_eq_self.mpr (fun k hk => by rw [(hkfacts k hk).2]; rfl)]
      simp
    rw [hfil]
    have hstep : sh.keys.map (fun c => (c, recordField r c))
        = sh.keys.map (fun k => (k, (r.metadata.lookup k).getD "")) := by
      apply List.map_congr_left
      intro k hk
      have hne := not_reserved_ne k (hkfacts k hk).2
      unfold recordField
      rw [if_neg hne.1, if_neg hne.2.1, if_neg hne.2.2.1, if_neg hne.2.2.2.1,
        if_neg hne.2.2.2.2]
    rw [hstep, lookup_reconstruct r.metadata sh.keys hkeys hknd]
  simp only [parseRow]
  rw [hfields, List.length_map, if_pos rfl]
  rw [lookup_zip_map (recordField r) cols "Book" hB,
    lookup_zip_map (recordField r) cols "Chapter" hC,
    lookup_zip_map (recordField r) cols "Verse" hV,
    lookup_zip_map (recordField r) cols "Target Text" hT,
    hsrcEq, hmd, hrfB, hrfC, hrfV, hrfT]
  simp only [strToNat_natToStr]
  rw [show (⟨ref.book, ref.chapter, ref.verse⟩ : Reference) = ref from rfl, ← href]

theorem parseRows_roundtrip (sh : TSVShape) (cols : List String)
    (hsh : shapeWF sh = true)
    (hcols : cols = requiredCols ++ (if sh.srcPresent then ["Source Text"] else []) ++ sh.keys) :
    ∀ (rs : List TranslationRecord) (n : Nat), (∀ r ∈ rs, recordWF sh r = true) →
      parseRows cols n (rs.map (fun r => joinStr '\t' (cols.map (recordField r)))) = .ok rs := by
  intro rs
  induction rs with
  | nil => intro n _; rfl
  | cons r rest ih =>
    intro n h
    simp only [List.map_cons, parseRows]
    rw [parseRow_roundtrip sh r n cols hsh (h r (List.mem_cons_self r rest)) hcols]
    rw [ih (n + 1) (fun r2 hr2 => h r2 (List.mem_cons_of_mem r hr2))]

/-! ### Record-set round trip for well-formed sets -/

theorem serialize_roundtrip_of_wf (sh : TSVShape) (rs : List TranslationRecord)
    (h : setWF sh rs = true) : parseTSV (serializeTSV rs) = .ok rs := by
  unfold setWF at h
  simp only [Bool.and_eq_true] at h
  obtain ⟨hsh, hall⟩ := h
  have hrecs : ∀ r ∈ rs, recordWF sh r = true := List.all_eq_true.mp hall
  obtain ⟨hknd, hkfacts⟩ := shapeWF_spec sh hsh
  cases rs with
  | nil => rfl
  | cons r0 rest =>
    have hheader : headerCols (r0 :: rest)
        = requiredCols ++ (if sh.srcPresent then ["Source Text"] else []) ++ sh.keys := by
      unfold headerCols
      rw [metaKeysFold_const sh.keys r0 rest
        (fun r hr => (recordWF_spec sh r (hrecs r hr)).2.2.2.2.1),
        hasSource_const sh.srcPresent r0 rest
        (fun r hr => (recordWF_spec sh r (hrecs r hr)).2.2.1)]
    have hcolclean : ∀ c ∈ headerCols (r0 :: rest), cleanChars c = true := by
      intro c hc
      rw [hheader] at hc
      rcases List.mem_append.mp hc with h1 | h1
      · rcases List.mem_append.mp h1 with h2 | h2
        · simp only [requiredCols, List.mem_cons, List.not_mem_nil, or_false] at h2
          rcases h2 with rfl | rfl | rfl | rfl <;> decide
        · cases hb : sh.srcPresent
          · rw [hb] at h2; simp at h2
          · rw [hb] at h2
            simp at h2
            subst h2
            decide
      · exact (hkfacts c h1).1
    have hcolsnd : (headerCols (r0 :: rest)).Nodup := by
      rw [hheader]
      rw [List.append_assoc, List.nodup_append]
      refine ⟨by decide, ?_, ?_⟩
      · rw [List.nodup_append]
        refine ⟨?_, hknd, ?_⟩
        · cases sh.srcPresent <;> simp
        · intro a ha
          cases hb : sh.srcPresent
          · rw [hb] at ha; simp at ha
          · rw [hb] at ha
            simp at ha
            subst ha
            intro hmem
            exact absurd (hkfacts _ hmem).2 (by decide)
      · intro a ha
        have hares : reservedCols.contains a = true := by
          simp only [reservedCols]
          exact List.elem_eq_true_of_mem (List.mem_append_left _ ha)
        intro hmem
        rcases List.mem_append.mp hmem with h2 | h2
        · cases hb : sh.srcPresent
          · rw [hb] at h2; simp at h2
          · rw [hb] at h2
            simp at h2
            subst h2
            simp only [requiredCols, List.mem_cons, List.not_mem_nil, or_false] at ha
            rcases ha with h3 | h3 | h3 | h3 <;> exact absurd h3 (by decide)
        · rw [(hkfacts a h2).2] at hares
          exact absurd hares (by decide)
    have hreqmem : ∀ c ∈ requiredCols, c ∈ headerCols (r0 :: rest) := by
      intro c hc
      rw [hheader]
      exact List.mem_append_left _ (List.mem_append_left _ hc)
    have hlen2 : 2 ≤ (headerCols (r0 :: rest)).length := by
      rw [hheader]
      simp [requiredCols]
    have hmaplen2 : ∀ r : TranslationRecord,
        2 ≤ ((headerCols (r0 :: rest)).map (recordField r)).length := by
      intro r
      rw [List.length_map]
      exact hlen2
    have hlineclean : ∀ s ∈ joinStr '\t' (headerCols (r0 :: rest)) ::
        (r0 :: rest).map (fun r => joinStr '\t' ((headerCols (r0 :: rest)).map (recordField r))),
        '\n' ∉ s.data := by
      intro s hs
      rcases List.mem_cons.mp hs with rfl | h1
      · exact joinStr_no_newline _ hcolclean
      · rcases List.mem_map.mp h1 with ⟨r, hrmem, rfl⟩
        apply joinStr_no_newline
        intro t ht
        rcases List.mem_map.mp ht with ⟨c, hcmem, rfl⟩
        exact recordField_clean sh r (hrecs r hrmem) c
    have hlinesne : ∀ s ∈ joinStr '\t' (headerCols (r0 :: rest)) ::
        (r0 :: rest).map (fun r => joinStr '\t' ((headerCols (r0 :: rest)).map (recordField r))),
        s ≠ "" := by
      intro s hs
      rcases List.mem_cons.mp hs with rfl | h1
      · exact joinStr_ne_empty '\t' _ hlen2
      · rcases List.mem_map.mp h1 with ⟨r, hrmem, rfl⟩
        exact joinStr_ne_empty '\t' _ (hmaplen2 r)
    have hsplitlines : splitStr '\n' (serializeTSV (r0 :: rest))
        = joinStr '\t' (headerCols (r0 :: rest)) ::
          (r0 :: rest).map
            (fun r => joinStr '\t' ((headerCols (r0 :: rest)).map (recordField r))) := by
      unfold serializeTSV
      exact splitStr_joinStr '\n' _ (by simp) hlineclean
    have hcolsback : splitStr '\t' (joinStr '\t' (headerCols (r0 :: rest)))
        = headerCols (r0 :: rest) := by
      apply splitStr_joinStr
      · intro hcon
        rw [hcon] at hlen2
        simp at hlen2
      · intro s hs
        exact ((cleanChars_iff s).mp (hcolclean s hs)).1
    unfold parseTSV
    rw [hsplitlines, dropTrailingBlanks_of_no_blank _ hlinesne]
    simp only [hcolsback, hcolsnd, if_true, required_all_of_mem _ hreqmem]
    exact parseRows_roundtrip sh (headerCols (r0 :: rest)) hsh hheader (r0 :: rest) 2 hrecs

/-! ### Parse output is well-formed -/

theorem zip_snd_mem (cols : List String) :
    ∀ (fields : List String) (kv : String × String),
      kv ∈ cols.zip fields → kv.2 ∈ fields := by
  induction cols with
  | nil => intro fields kv h; exact absurd h (by simp)
  | cons c cs ih =>
    intro fields kv h
    cases fields with
    | nil => exact absurd h (by simp)
    | cons v vs =>
      rcases List.mem_cons.mp h with h1 | h1
      · subst h1; exact List.mem_cons_self v vs
      · exact List.mem_cons_of_mem v (ih vs kv h1)

theorem parseRow_wf (cols : List String) (n : Nat) (row : String) (r : TranslationRecord)
    (hok : parseRow cols n row = .ok r) (hrow : '\n' ∉ row.data) :
    recordWF ⟨cols.contains "Source Text",
      cols.filter (fun c => !(reservedCols.contains c))⟩ r = true := by
  have hfclean : ∀ s ∈ splitStr '\t' row, cleanChars s = true := by
    intro s hs
    rw [cleanChars_iff]
    refine ⟨mem_splitStr_no_sep '\t' row s hs, ?_⟩
    intro hmem
    exact hrow (mem_splitStr_chars '\t' row s hs '\n' hmem)
  simp only [parseRow] at hok
  split at hok
  · rename_i hlen
    split at hok
    · rename_i book chapterS verseS target heqB heqC heqV heqT
      split at hok
      · rename_i chapter verse heqCh heqVr
        injection hok with hok2
        subst hok2
        unfold recordWF
        simp only [Bool.and_eq_true]
        refine ⟨⟨⟨⟨⟨?_, ?_⟩, ?_⟩, ?_⟩, ?_⟩, ?_⟩
        · show cleanChars book = true
          exact hfclean book (lookup_zip_mem_values cols _ _ _ heqB)
        · show cleanChars target = true
          exact hfclean target (lookup_zip_mem_values cols _ _ _ heqT)
        · show (((cols.zip (splitStr '\t' row)).lookup "Source Text").isSome
            == cols.contains "Source Text") = true
          rw [lookup_zip_isSome cols (splitStr '\t' row) "Source Text" hlen.symm]
          simp
        · cases hl : (cols.zip (splitStr '\t' row)).lookup "Source Text" with
          | none => rfl
          | some s => exact hfclean s (lookup_zip_mem_values cols _ _ _ hl)
        · exact decide_eq_true
            (filter_zip_map_fst (fun c => !(reservedCols.contains c)) cols
              (splitStr '\t' row) hlen.symm)
        · rw [List.all_eq_true]
          intro kv hkv
          have hz : kv ∈ cols.zip (splitStr '\t' row) := (List.mem_filter.mp hkv).1
          exact hfclean kv.2 (zip_snd_mem cols _ kv hz)
      · exact absurd hok (by simp)
      · exact absurd hok (by simp)
    · exact absurd hok (by simp)
  · exact absurd hok (by simp)

theorem parseRows_wf (cols : List String) :
    ∀ (rows : List String) (n : Nat) (out : List TranslationRecord),
      parseRows cols n rows = .ok out → (∀ row ∈ rows, '\n' ∉ row.data) →
      ∀ r ∈ out, recordWF ⟨cols.contains "Source Text",
        cols.filter (fun c => !(reservedCols.contains c))⟩ r = true := by
  intro rows
  induction rows with
  | nil =>
    intro n out h _ r hrm
    simp only [parseRows] at h
    injection h with h2
    subst h2
    exact absurd hrm (List.not_mem_nil r)
  | cons row rest ih =>
    intro n out h hclean r hrm
    simp only [parseRows] at h
    cases hpr : parseRow cols n row with
    | error e => rw [hpr] at h; exact absurd h (by simp)
    | ok r0 =>
      rw [hpr] at h
      cases hrest : parseRows cols (n + 1) rest with
      | error e => rw [hrest] at h; exact absurd h (by simp)
      | ok rs0 =>
        rw [hrest] at h
        injection h with h2
        subst h2
        rcases List.mem_cons.mp hrm with rfl | hmem
        · exact parseRow_wf cols n row r hpr (hclean row (List.mem_cons_self row rest))
        · exact ih (n + 1) rs0 hrest
            (fun row2 hrow2 => hclean row2 (List.mem_cons_of_mem row hrow2)) r hmem

theorem parseTSV_wf (T : String) (rs : List TranslationRecord)
    (h : parseTSV T = .ok rs) : ∃ sh : TSVShape, setWF sh rs = true := by
  unfold parseTSV at h
  split at h
  · exact absurd h (by simp)
  · rename_i headerLine rows heq
    split at h
    · rename_i hnd
      split at h
      · refine ⟨⟨(splitStr '\t' headerLine).contains "Source Text",
          (splitStr '\t' headerLine).filter (fun c => !(reservedCols.contains c))⟩, ?_⟩
        unfold setWF
        rw [Bool.and_eq_true]
        have hhdr_mem : headerLine ∈ splitStr '\n' T := by
          apply mem_dropTrailingBlanks
          rw [heq]
          exact List.mem_cons_self headerLine rows
        have hhdr_nl : '\n' ∉ headerLine.data := mem_splitStr_no_sep '\n' T headerLine hhdr_mem
        constructor
        · unfold shapeWF
          rw [Bool.and_eq_true]
          constructor
          · exact decide_eq_true (List.Nodup.filter _ hnd)
          · rw [List.all_eq_true]
            intro k hk
            have hkc := List.mem_filter.mp hk
            have hclean : cleanChars k = true := by
              rw [cleanChars_iff]
              refine ⟨mem_splitStr_no_sep '\t' headerLine k hkc.1, ?_⟩
              intro hmem
              exact hhdr_nl (mem_splitStr_chars '\t' headerLine k hkc.1 '\n' hmem)
            simp only [hclean, hkc.2]
            rfl
        · rw [List.all_eq_true]
          intro r hrmem
          apply parseRows_wf (splitStr '\t' headerLine) rows 2 rs h ?_ r hrmem
          intro row hrow
          have hmem2 : row ∈ splitStr '\n' T := by
            apply mem_dropTrailingBlanks
            rw [heq]
            exact List.mem_cons_of_mem headerLine hrow
          exact mem_splitStr_no_sep '\n' T row hmem2
      · exact absurd h (by simp)
    · exact absurd h (by simp)

/-! ### C3: the TSV round trip -/

/-- C3: for every well-formed TSV input `T` (one whose parse succeeds),
serializing the parsed record set back to TSV and re-parsing the result
yields a record set equal, field for field, to the original parse. -/
theorem c3_tsv_roundtrip (T : String) (rs : List TranslationRecord)
    (h : parseTSV T = .ok rs) : parseTSV (serializeTSV rs) = .ok rs := by
  obtain ⟨sh, hwf⟩ := parseTSV_wf T rs h
  exact serialize_roundtrip_of_wf sh rs hwf

/-- Witness for C3 at an input exercising the optional source-text column
and a metadata column. -/
theorem c3_tsv_roundtrip_witness :
    parseTSV "Book\tChapter\tVerse\tTarget Text\tSource Text\tnote\nGen\t1\t1\thi\tsrc\tnn"
      = .ok [⟨some ⟨"Gen", 1, 1⟩, some "src", "hi", [("note", "nn")]⟩] ∧
    parseTSV (serializeTSV [⟨some ⟨"Gen", 1, 1⟩, some "src", "hi", [("note", "nn")]⟩])
      = .ok [⟨some ⟨"Gen", 1, 1⟩, some "src", "hi", [("note", "nn")]⟩] :=
  ⟨by rfl,
   c3_tsv_roundtrip "Book\tChapter\tVerse\tTarget Text\tSource Text\tnote\nGen\t1\t1\thi\tsrc\tnn"
     [⟨some ⟨"Gen", 1, 1⟩, some "src", "hi", [("note", "nn")]⟩] (by rfl)⟩

end UltWriter
